import Mathlib

/-!
Shallow embedding of `src/drag_mouse.py` (a script that parses a motions file
into Drag/Sleep steps and replays them as one continuous mouse drag).

Modelling conventions:
* Strings are `List Char`; Python `str.strip`, `str.split`, `str.upper`,
  `str.lower` are modelled for ASCII inputs (`pystrip`, `pysplit`,
  `upperList`, `lowerList`).
* Python's builtin `float(str)` is modelled by `pyfloat`: optional sign,
  `inf`/`infinity`/`nan` case-insensitively, or a decimal literal with
  optional fraction, optional exponent and underscores between digits.
  The numeric value is idealized as an exact rational (`PyF.finite q`);
  infinities and NaN are explicit constructors.
* The regex `drag_line_re` is embedded as the deterministic matcher
  `dragMatch` (the regex is anchored and its token classes are disjoint,
  so backtracking never changes the outcome).
* The executor `run_single_hold` is embedded as a trace-producing function:
  each print / pyautogui / time.sleep call becomes one `Ev` event, in
  program order.  A `FailSafeException` or `KeyboardInterrupt` raised
  mid-iteration is modelled by `abortAt = some k`: the exception fires at
  the start of loop iteration `k` (inside the `try`), and the returned
  Bool records that the exception propagates out of `run_single_hold`
  after the `finally` block has run.
-/

namespace DragMouse

/-- ASCII whitespace as recognized by Python `str.strip` / `str.split` and
the regex class `\s` (restricted to ASCII, which covers the format). -/
def isSpace (c : Char) : Bool :=
  c = ' ' || c = '\t' || c = '\n' || c = '\r' || c = '\x0b' || c = '\x0c'

def isDigit (c : Char) : Bool :=
  '0' ≤ c && c ≤ '9'

def digitVal (c : Char) : ℕ := c.toNat - 48

/-- ASCII uppercase of one character (model of `str.upper` per char). -/
def upperChar (c : Char) : Char :=
  if 'a' ≤ c && c ≤ 'z' then Char.ofNat (c.toNat - 32) else c

/-- ASCII lowercase of one character (model of `str.lower` per char). -/
def lowerChar (c : Char) : Char :=
  if 'A' ≤ c && c ≤ 'Z' then Char.ofNat (c.toNat + 32) else c

def upperList (s : List Char) : List Char := s.map upperChar

def lowerList (s : List Char) : List Char := s.map lowerChar

/-- Model of Python `str.strip()`: drop leading and trailing whitespace. -/
def pystrip (s : List Char) : List Char :=
  ((s.dropWhile isSpace).reverse.dropWhile isSpace).reverse

def splitAux : List Char → List Char → List (List Char)
  | [], acc => if acc.isEmpty then [] else [acc.reverse]
  | c :: rest, acc =>
    if isSpace c then
      if acc.isEmpty then splitAux rest [] else acc.reverse :: splitAux rest []
    else splitAux rest (c :: acc)

/-- Model of Python `str.split()` (no argument): split on runs of
whitespace, discarding empty tokens. -/
def pysplit (s : List Char) : List (List Char) := splitAux s []

/-- A Python float value, idealized: decimal literals become exact
rationals; infinities and NaN are explicit. -/
inductive PyF
  | finite (q : ℚ)
  | infty (neg : Bool)
  | nan
deriving DecidableEq

/-- Value of a digit string read most-significant first. -/
def digitsVal (ds : List Char) : ℕ :=
  ds.foldl (fun v c => 10 * v + digitVal c) 0

/-- Greedy scan of a digit group that may contain underscores between
digits (Python numeric-literal rule).  Returns (value so far, number of
digits consumed, rest).  The group may not start or end with `_` and `_`
must sit between two digits; offending underscores are left unconsumed. -/
def digpart : List Char → ℕ → ℕ → ℕ × ℕ × List Char
  | [], v, n => (v, n, [])
  | [c], v, n =>
    if isDigit c then (10 * v + digitVal c, n + 1, []) else (v, n, [c])
  | c :: d :: rest, v, n =>
    if isDigit c then digpart (d :: rest) (10 * v + digitVal c) (n + 1)
    else if c = '_' && isDigit d then digpart rest (10 * v + digitVal d) (n + 1)
    else (v, n, c :: d :: rest)

/-- Scan a digit group (with underscores) that must start with a digit;
otherwise consume nothing. -/
def digits0 (s : List Char) : ℕ × ℕ × List Char :=
  match s with
  | c :: _ => if isDigit c then digpart s 0 0 else (0, 0, s)
  | [] => (0, 0, s)

/-- The magnitude part of Python `float(str)` after an optional sign has
been removed: `inf`/`infinity`/`nan` case-insensitively, or a decimal
literal `digits [. digits] [e [sign] digits]` with at least one mantissa
digit. -/
def pyfloatMag (s : List Char) (neg : Bool) : Option PyF :=
  let l := lowerList s
  if l = "inf".toList ∨ l = "infinity".toList then some (.infty neg)
  else if l = "nan".toList then some .nan
  else
    let p1 := digits0 s
    let iv := p1.1
    let ni := p1.2.1
    let r1 := p1.2.2
    let p2 :=
      match r1 with
      | '.' :: rest => digits0 rest
      | _ => (0, 0, r1)
    let fv := p2.1
    let nf := p2.2.1
    let r2 := p2.2.2
    if ni + nf = 0 then none
    else
      let mant : ℚ := (iv : ℚ) + (fv : ℚ) / (10 : ℚ) ^ nf
      let mant := if neg then -mant else mant
      match r2 with
      | [] => some (.finite mant)
      | e :: rest =>
        if e = 'e' ∨ e = 'E' then
          let sr :=
            match rest with
            | '+' :: r => (false, r)
            | '-' :: r => (true, r)
            | _ => (false, rest)
          let p3 := digits0 sr.2
          let ev := p3.1
          let ne := p3.2.1
          let r3 := p3.2.2
          if ne = 0 ∨ r3 ≠ [] then none
          else if sr.1 then some (.finite (mant / (10 : ℚ) ^ ev))
          else some (.finite (mant * (10 : ℚ) ^ ev))
        else none

/-- Model of Python's builtin `float(str)` (ASCII inputs): strip
whitespace, optional sign, then magnitude. -/
def pyfloat (s0 : List Char) : Option PyF :=
  match pystrip s0 with
  | '+' :: rest => pyfloatMag rest false
  | '-' :: rest => pyfloatMag rest true
  | s => pyfloatMag s false

/-- Greedy `\d+` scan: value and rest. -/
def digitsLoop : List Char → ℕ → ℕ × List Char
  | [], v => (v, [])
  | c :: rest, v =>
    if isDigit c then digitsLoop rest (10 * v + digitVal c) else (v, c :: rest)

/-- Regex `\d+`: at least one digit, greedy. -/
def digitsPlain (s : List Char) : Option (ℕ × List Char) :=
  match s with
  | c :: _ => if isDigit c then some (digitsLoop s 0) else none
  | [] => none

/-- Regex `-?\d+`, converted with Python `int` semantics. -/
def matchInt (s : List Char) : Option (Int × List Char) :=
  match s with
  | '-' :: rest =>
    match digitsPlain rest with
    | some (v, r) => some (-(v : Int), r)
    | none => none
  | _ =>
    match digitsPlain s with
    | some (v, r) => some ((v : Int), r)
    | none => none

/-- Regex `\s*`: greedy whitespace skip. -/
def skipWs (s : List Char) : List Char := s.dropWhile isSpace

/-- Does `p` fully match the duration group `[0-9]*\.?[0-9]+`?
(Characterization: nonempty, at most one dot, ends in a digit;
the call site guarantees every char of `p` is a digit or a dot.) -/
def durOk (p : List Char) : Bool :=
  !p.isEmpty && p.countP (fun c => c = '.') ≤ 1 &&
    (match p.getLast? with
     | some c => isDigit c
     | none => false)

def isDurChar (c : Char) : Bool := isDigit c || c = '.'

/-- Embedding of `drag_line_re.match(line)`:
`^\s*(-?\d+)\s*,\s*(-?\d+)\s*->\s*(-?\d+)\s*,\s*(-?\d+)(?:\s*,\s*([0-9]*\.?[0-9]+))?\s*$`.
Returns the four integer captures and the raw text of the optional
duration capture group. -/
def dragMatch (s : List Char) : Option (Int × Int × Int × Int × Option (List Char)) :=
  match matchInt (skipWs s) with
  | none => none
  | some (x1, r1) =>
    match skipWs r1 with
    | ',' :: r2 =>
      match matchInt (skipWs r2) with
      | none => none
      | some (y1, r3) =>
        match skipWs r3 with
        | '-' :: '>' :: r4 =>
          match matchInt (skipWs r4) with
          | none => none
          | some (x2, r5) =>
            match skipWs r5 with
            | ',' :: r6 =>
              match matchInt (skipWs r6) with
              | none => none
              | some (y2, r7) =>
                match skipWs r7 with
                | [] => some (x1, y1, x2, y2, none)
                | ',' :: r9 =>
                  let t := skipWs r9
                  let p := t.takeWhile isDurChar
                  let rest := t.dropWhile isDurChar
                  if durOk p && rest.all isSpace then
                    some (x1, y1, x2, y2, some p)
                  else none
                | _ => none
            | _ => none
        | _ => none
    | _ => none

/-- A parsed step: `("DRAG", (x1, y1, x2, y2, dur))` or `("SLEEP", seconds)`
from `parse_file`. -/
inductive Step
  | drag (x1 y1 x2 y2 : Int) (dur : Option PyF)
  | sleep (seconds : PyF)
deriving DecidableEq

/-- `float(dur_str)` applied to the regex's duration capture.  The regex
guarantees the capture is a valid decimal literal, so `pyfloat` always
succeeds there (`pyfloat_of_durOk`); the default is never reached. -/
def floatOfGroup (p : List Char) : PyF :=
  (pyfloat p).getD (PyF.finite 0)

/-- Per-line outcome inside the parse loop of `parse_file`: skip
(blank/comment), an emitted step, or one of the three errors. -/
inductive LineResult
  | skip
  | sleepStep (v : PyF)
  | dragStep (x1 y1 x2 y2 : Int) (d : Option PyF)
  | errSleepArity (line : List Char)
  | errSleepValue (tok : List Char)
  | errBadLine (line : List Char)
deriving DecidableEq

def sleepKw : List Char := "SLEEP".toList

/-- One iteration of the parse loop of `parse_file` (lines 57-76 of the
source), on the raw line text. -/
def processLine (raw : List Char) : LineResult :=
  let line := pystrip raw
  match line with
  | [] => .skip
  | c :: _ =>
    if c = '#' then .skip
    else if sleepKw.isPrefixOf (upperList line) then
      match pysplit line with
      | [_, tok] =>
        match pyfloat tok with
        | some v => .sleepStep v
        | none => .errSleepValue tok
      | _ => .errSleepArity line
    else
      match dragMatch line with
      | some (x1, y1, x2, y2, d) => .dragStep x1 y1 x2 y2 (d.map floatOfGroup)
      | none => .errBadLine line

/-- Decimal digits of a natural number, for the `{idx}` f-string slot. -/
def showNat (n : ℕ) : List Char := (Nat.repr n).toList

/-- A raised `ValueError` from `parse_file`: the 1-based line index and the
message text (the index is also embedded in the message, as in the
f-strings of the source). -/
structure PError where
  idx : ℕ
  msg : List Char
deriving DecidableEq

def mkArityMsg (path : List Char) (idx : ℕ) (line : List Char) : List Char :=
  path ++ (":").toList ++ showNat idx ++
    (": SLEEP requires one numeric value (seconds). Got: ").toList ++ line

def mkValueMsg (path : List Char) (idx : ℕ) (tok : List Char) : List Char :=
  path ++ (":").toList ++ showNat idx ++
    (": Invalid SLEEP seconds: ").toList ++ tok

def mkBadMsg (path : List Char) (idx : ℕ) (line : List Char) : List Char :=
  path ++ (":").toList ++ showNat idx ++
    (": Invalid line. Expected \x27x1,y1 -> x2,y2[,duration]\x27. Got: ").toList ++ line

/-- The parse loop of `parse_file` from line index `idx`: first error wins,
otherwise all emitted steps in file order. -/
def parseLinesFrom (path : List Char) : ℕ → List (List Char) → Except PError (List Step)
  | _, [] => .ok []
  | idx, raw :: rest =>
    match processLine raw with
    | .skip => parseLinesFrom path (idx + 1) rest
    | .sleepStep v =>
      (parseLinesFrom path (idx + 1) rest).map (fun l => Step.sleep v :: l)
    | .dragStep a b c d dur =>
      (parseLinesFrom path (idx + 1) rest).map (fun l => Step.drag a b c d dur :: l)
    | .errSleepArity line => .error ⟨idx, mkArityMsg path idx line⟩
    | .errSleepValue tok => .error ⟨idx, mkValueMsg path idx tok⟩
    | .errBadLine line => .error ⟨idx, mkBadMsg path idx line⟩

/-- `parse_file(path)` on the file's lines (the file object yields lines
1-indexed; the line terminator is stripped with the rest of the
surrounding whitespace). -/
def parse_file (path : List Char) (lines : List (List Char)) : Except PError (List Step) :=
  parseLinesFrom path 1 lines

/-- One observable action of `run_single_hold`, in program order: each
`print`, `pyautogui.moveTo`, `pyautogui.mouseDown`, `pyautogui.mouseUp`
and `time.sleep` call becomes one event. -/
inductive Ev
  | printNoop
  | printStart (x y : Int) (btn : List Char)
  | moveToStart (x y : Int)
  | mouseDown (btn : List Char)
  | printSleepNote (s : PyF)
  | sleepCall (s : PyF)
  | printWarn (sx sy cx cy : Int)
  | connectorMove (sx sy : Int)
  | printMove (i : ℕ) (sx sy ex ey : Int) (d : PyF)
  | easedMove (ex ey : Int) (d : PyF)
  | betweenSleep (d : PyF)
  | printRelease
  | mouseUp (btn : List Char)
deriving DecidableEq

/-- The `for kind, payload in steps` loop of `run_single_hold` (source
lines 98-121), threading the tracked current position and `seg_index`.
`abortAt = some k` raises the abort exception (failsafe or interrupt) at
the start of iteration `k`; the Bool reports whether an exception
propagates out of the loop. -/
def runLoop (dd : ℚ) (bd : ℚ) :
    List Step → Int → Int → ℕ → Option ℕ → List Ev × Bool
  | [], _, _, _, _ => ([], false)
  | st :: rest, cx, cy, segIdx, abortAt =>
    if abortAt = some 0 then ([], true)
    else
      let ab2 := abortAt.map (fun k => k - 1)
      match st with
      | .sleep s =>
        let r := runLoop dd bd rest cx cy segIdx ab2
        (Ev.printSleepNote s :: Ev.sleepCall s :: r.1, r.2)
      | .drag sx sy ex ey dur =>
        let d := dur.getD (PyF.finite dd)
        let pre :=
          if (sx, sy) ≠ (cx, cy) then
            [Ev.printWarn sx sy cx cy, Ev.connectorMove sx sy]
          else []
        let post := if 0 < bd then [Ev.betweenSleep (.finite bd)] else []
        let r := runLoop dd bd rest ex ey (segIdx + 1) ab2
        (pre ++ Ev.printMove (segIdx + 1) sx sy ex ey d :: Ev.easedMove ex ey d :: post ++ r.1,
          r.2)

/-- `next((p for (k, p) in steps if k == "DRAG"), None)`. -/
def firstDrag : List Step → Option (Int × Int × Int × Int × Option PyF)
  | [] => none
  | .drag a b c d e :: _ => some (a, b, c, d, e)
  | .sleep _ :: rest => firstDrag rest

/-- Button normalization of `run_single_hold` (source lines 87-89):
lowercase, then fall back to "left" when not a recognized name. -/
def normBtn (button : List Char) : List Char :=
  let b := lowerList button
  if b = "left".toList ∨ b = "right".toList ∨ b = "middle".toList then b
  else "left".toList

/-- `run_single_hold(steps, default_duration, button, between_delay)` as a
trace.  The `finally` block (print + `mouseUp`) is appended on every exit
path of the loop; the Bool records whether the abort exception propagates
to the caller after the `finally` has run. -/
def run_single_hold (steps : List Step) (default_duration : ℚ)
    (button : List Char) (between_delay : ℚ) (abortAt : Option ℕ) :
    List Ev × Bool :=
  match firstDrag steps with
  | none => ([Ev.printNoop], false)
  | some (x1, y1, _, _, _) =>
    let btn := normBtn button
    let r := runLoop default_duration between_delay steps x1 y1 0 abortAt
    (Ev.printStart x1 y1 btn :: Ev.moveToStart x1 y1 :: Ev.mouseDown btn :: r.1 ++
      [Ev.printRelease, Ev.mouseUp btn], r.2)

/-! ### Observation helpers on traces and step lists -/

def isMouseUp : Ev → Bool
  | .mouseUp _ => true
  | _ => false

def isMouseDown : Ev → Bool
  | .mouseDown _ => true
  | _ => false

def isWarnEv : Ev → Bool
  | .printWarn _ _ _ _ => true
  | _ => false

def isConnEv : Ev → Bool
  | .connectorMove _ _ => true
  | _ => false

/-- The calls that reach the backend (pyautogui / time.sleep), print
statements filtered out. -/
def isBackendCall : Ev → Bool
  | .moveToStart _ _ => true
  | .mouseDown _ => true
  | .sleepCall _ => true
  | .connectorMove _ _ => true
  | .easedMove _ _ _ => true
  | .betweenSleep _ => true
  | .mouseUp _ => true
  | _ => false

def backendCalls (tr : List Ev) : List Ev := tr.filter isBackendCall

def isDragStep : Step → Bool
  | .drag _ _ _ _ _ => true
  | _ => false

/-- Number of Drag steps whose declared start differs from the tracked
current position, threading the position exactly as the spec describes
(CursorState). -/
def discCount : List Step → Int → Int → ℕ
  | [], _, _ => 0
  | .sleep _ :: rest, cx, cy => discCount rest cx cy
  | .drag sx sy ex ey _ :: rest, cx, cy =>
    (if (sx, sy) ≠ (cx, cy) then 1 else 0) + discCount rest ex ey

/-- Is `sub` a contiguous substring of `s`? -/
def containsSub (s sub : List Char) : Bool :=
  match s with
  | [] => sub.isEmpty
  | _ :: rest => sub.isPrefixOf s || containsSub rest sub

/-- Does this raw line make `parse_file` raise? -/
def errLine (raw : List Char) : Bool :=
  match processLine raw with
  | .errSleepArity _ => true
  | .errSleepValue _ => true
  | .errBadLine _ => true
  | _ => false

/-- The exact rational value of a duration capture (digits with at most
one dot): integer part plus fraction part scaled by a power of ten. -/
def groupVal (p : List Char) : ℚ :=
  let a := p.takeWhile (fun c => c ≠ '.')
  let r := p.dropWhile (fun c => c ≠ '.')
  match r with
  | [] => (digitsVal a : ℚ)
  | _ :: c => (digitsVal a : ℚ) + (digitsVal c : ℚ) / (10 : ℚ) ^ c.length

/-- A whitespace string (regex `\s*`), for the spec-side grammar. -/
def IsWsStr (w : List Char) : Prop := ∀ c ∈ w, isSpace c = true

/-- A possibly-signed integer token (regex `-?\d+`) together with its
value, for the spec-side grammar. -/
def IsIntTok (t : List Char) (v : Int) : Prop :=
  (∃ ds, ds ≠ [] ∧ (∀ c ∈ ds, isDigit c = true) ∧ t = ds ∧
    v = (digitsVal ds : Int)) ∨
  (∃ ds, ds ≠ [] ∧ (∀ c ∈ ds, isDigit c = true) ∧ t = '-' :: ds ∧
    v = -(digitsVal ds : Int))

/-- A duration token (regex group `[0-9]*\.?[0-9]+`: an unsigned decimal
literal that may lead with `.` and no integer part) with its exact real
value, for the spec-side grammar. -/
def IsDurTok (t : List Char) (q : ℚ) : Prop :=
  (∃ ds, ds ≠ [] ∧ (∀ c ∈ ds, isDigit c = true) ∧ t = ds ∧
    q = (digitsVal ds : ℚ)) ∨
  (∃ a c, (∀ x ∈ a, isDigit x = true) ∧ (∀ x ∈ c, isDigit x = true) ∧
    c ≠ [] ∧ t = a ++ '.' :: c ∧
    q = (digitsVal a : ℚ) + (digitsVal c : ℚ) / (10 : ℚ) ^ c.length)

/-- The spec's drag-line grammar, written as a decomposition:
`<ws> <int> <ws> , <ws> <int> <ws> -> <ws> <int> <ws> , <ws> <int>
[<ws> , <ws> <real>] <ws>`, carrying the captured values.  `od = none`
means the optional duration group is absent. -/
def DragDecomp (line : List Char) (x1 y1 x2 y2 : Int) (od : Option ℚ) : Prop :=
  ∃ w0 t1 w1 w2 t2 w3 w4 t3 w5 w6 t4 tail,
    IsWsStr w0 ∧ IsWsStr w1 ∧ IsWsStr w2 ∧ IsWsStr w3 ∧ IsWsStr w4 ∧
    IsWsStr w5 ∧ IsWsStr w6 ∧
    IsIntTok t1 x1 ∧ IsIntTok t2 y1 ∧ IsIntTok t3 x2 ∧ IsIntTok t4 y2 ∧
    line = w0 ++ t1 ++ w1 ++ ',' ::
      (w2 ++ t2 ++ w3 ++ '-' :: '>' ::
        (w4 ++ t3 ++ w5 ++ ',' :: (w6 ++ t4 ++ tail))) ∧
    (match od with
     | none => IsWsStr tail
     | some q => ∃ w7 w8 d w9, IsWsStr w7 ∧ IsWsStr w8 ∧ IsWsStr w9 ∧
         IsDurTok d q ∧ tail = w7 ++ ',' :: (w8 ++ d ++ w9))

/-- No leading digit (the boundary condition after a maximal `\d+`). -/
def HeadNotDigit (r : List Char) : Prop :=
  ∀ c, r.head? = some c → isDigit c = false

/-- The three lines of the worked example in the module docstring. -/
def exampleLines : List (List Char) :=
  [("-660,663 -> -961,494,1.0").toList, ("SLEEP 0.1").toList,
   ("-961,494 -> -1260,494,1.0").toList]

/-- The step sequence the worked example is specified to parse to. -/
def exampleSteps : List Step :=
  [Step.drag (-660) 663 (-961) 494 (some (PyF.finite 1)),
   Step.sleep (PyF.finite (1 / 10)),
   Step.drag (-961) 494 (-1260) 494 (some (PyF.finite 1))]

/-! ### Helper lemmas -/

theorem runLoop_no_mouse (dd bd : ℚ) (steps : List Step) :
    ∀ (cx cy : Int) (k : ℕ) (ab : Option ℕ),
      (runLoop dd bd steps cx cy k ab).1.filter isMouseUp = [] ∧
      (runLoop dd bd steps cx cy k ab).1.filter isMouseDown = [] := by
  induction steps with
  | nil => intro cx cy k ab; simp [runLoop]
  | cons st rest ih =>
    intro cx cy k ab
    by_cases hab : ab = some 0
    · simp [runLoop, hab]
    · cases st with
      | sleep s =>
        simp [runLoop, hab, isMouseUp, isMouseDown, ih]
      | drag sx sy ex ey dur =>
        by_cases hm : (sx, sy) ≠ (cx, cy) <;> by_cases hbd : 0 < bd <;>
          simp [runLoop, hab, hm, hbd, List.filter_append, isMouseUp, isMouseDown, ih]

theorem firstDrag_none_iff (steps : List Step) :
    firstDrag steps = none ↔ steps.countP isDragStep = 0 := by
  induction steps with
  | nil => simp [firstDrag]
  | cons st rest ih =>
    cases st with
    | drag a b c d e => simp [firstDrag, isDragStep, List.countP_cons]
    | sleep s => simp [firstDrag, isDragStep, List.countP_cons, ih]

theorem runLoop_warn_counts (dd bd : ℚ) (steps : List Step) :
    ∀ (cx cy : Int) (k : ℕ),
      (runLoop dd bd steps cx cy k none).1.countP isWarnEv = discCount steps cx cy ∧
      (runLoop dd bd steps cx cy k none).1.countP isConnEv = discCount steps cx cy := by
  induction steps with
  | nil => intro cx cy k; simp [runLoop, discCount]
  | cons st rest ih =>
    intro cx cy k
    cases st with
    | sleep s =>
      simp [runLoop, discCount, List.countP_cons, isWarnEv, isConnEv, ih cx cy k]
    | drag sx sy ex ey dur =>
      by_cases hm : (sx, sy) = (cx, cy) <;> by_cases hbd : 0 < bd <;>
        simp [runLoop, discCount, hm, hbd, List.countP_append, List.countP_cons,
          isWarnEv, isConnEv, (ih ex ey (k + 1)).1, (ih ex ey (k + 1)).2] <;>
        omega

theorem dropWhile_head_no (s : List Char)
    (h : ∀ c, s.head? = some c → isSpace c = false) :
    s.dropWhile isSpace = s := by
  cases s with
  | nil => rfl
  | cons c cs => simp [List.dropWhile_cons, h c rfl]

theorem pystrip_of_ends (s : List Char)
    (h1 : ∀ c, s.head? = some c → isSpace c = false)
    (h2 : ∀ c, s.getLast? = some c → isSpace c = false) :
    pystrip s = s := by
  unfold pystrip
  rw [dropWhile_head_no s h1,
    dropWhile_head_no s.reverse (fun c hc => h2 c (by rwa [List.head?_reverse] at hc)),
    List.reverse_reverse]

theorem pystrip_no_space (s : List Char) (h : ∀ c ∈ s, isSpace c = false) :
    pystrip s = s := by
  apply pystrip_of_ends
  · intro c hc
    exact h c (by cases s with | nil => simp at hc | cons a l => simp at hc; simp [hc])
  · intro c hc
    exact h c (List.mem_of_mem_getLast? (by rw [hc]; rfl))

theorem splitAux_no_space (tok : List Char) (h : ∀ c ∈ tok, isSpace c = false) :
    ∀ acc : List Char, acc.reverse ++ tok ≠ [] →
      splitAux tok acc = [acc.reverse ++ tok] := by
  induction tok with
  | nil =>
    intro acc hne
    have hacc : acc.isEmpty = false := by
      simp only [List.append_nil] at hne
      simpa [List.isEmpty_iff] using fun he => hne (by simp [he])
    simp [splitAux, hacc]
  | cons c cs ih =>
    intro acc hne
    have hc : isSpace c = false := h c (by simp)
    have := ih (fun x hx => h x (by simp [hx])) (c :: acc) (by simp)
    simp only [splitAux, hc, Bool.false_eq_true, if_false, this]
    simp

theorem pysplit_single (tok : List Char) (hne : tok ≠ [])
    (h : ∀ c ∈ tok, isSpace c = false) : pysplit tok = [tok] := by
  simpa using splitAux_no_space tok h [] (by simpa using hne)

theorem pysplit_sleep_tok (tok : List Char) (hne : tok ≠ [])
    (h : ∀ c ∈ tok, isSpace c = false) :
    pysplit (("SLEEP ").toList ++ tok) = [("SLEEP").toList, tok] := by
  have h1 : splitAux tok [] = [tok] := by
    simpa using splitAux_no_space tok h [] (by simpa using hne)
  simp +decide [pysplit, splitAux, h1]

theorem sleepKw_prefix_of_append (l : List Char) :
    sleepKw.isPrefixOf (upperList (("SLEEP ").toList ++ l)) = true := by
  simp +decide [upperList, sleepKw, List.isPrefixOf, upperChar]

theorem digit_toNat_bounds (c : Char) (h : isDigit c = true) :
    48 ≤ c.toNat ∧ c.toNat ≤ 57 := by
  simp only [isDigit, Bool.and_eq_true, decide_eq_true_eq] at h
  exact ⟨h.1, h.2⟩

theorem digit_notin (c : Char) (h : isDigit c = true) :
    c ≠ '.' ∧ c ≠ '_' ∧ c ≠ '+' ∧ c ≠ '-' ∧ isSpace c = false ∧
      lowerChar c = c := by
  have hb := digit_toNat_bounds c h
  refine ⟨?_, ?_, ?_, ?_, ?_, ?_⟩
  · intro e; subst e; exact absurd h (by decide)
  · intro e; subst e; exact absurd h (by decide)
  · intro e; subst e; exact absurd h (by decide)
  · intro e; subst e; exact absurd h (by decide)
  · by_contra hs
    have hs2 : isSpace c = true := by
      cases hv : isSpace c
      · exact absurd hv hs
      · rfl
    simp only [isSpace, Bool.or_eq_true, decide_eq_true_eq] at hs2
    rcases hs2 with ((((e | e) | e) | e) | e) | e <;>
      (subst e; exact absurd h (by decide))
  · have hcond : ('A' ≤ c && c ≤ 'Z') = false := by
      simp only [Bool.and_eq_false_iff, decide_eq_false_iff_not]
      left
      intro h3
      have e3 : 65 ≤ c.toNat := h3
      omega
    simp [lowerChar, hcond]

theorem durChar_cases (c : Char) (h : isDurChar c = true) :
    isDigit c = true ∨ c = '.' := by
  simp only [isDurChar, Bool.or_eq_true, decide_eq_true_eq] at h
  exact h

theorem durChar_lower (c : Char) (h : isDurChar c = true) : lowerChar c = c := by
  rcases durChar_cases c h with hd | hd
  · exact (digit_notin c hd).2.2.2.2.2
  · subst hd; decide

theorem digpart_stop (r : List Char) (v n : ℕ)
    (hr : r = [] ∨ ∃ c cs, r = c :: cs ∧ isDigit c = false ∧ c ≠ '_') :
    digpart r v n = (v, n, r) := by
  rcases hr with rfl | ⟨c, cs, rfl, hc, hc2⟩
  · rfl
  · cases cs with
    | nil => simp [digpart, hc]
    | cons d rest => simp [digpart, hc, hc2]

theorem digpart_digits : ∀ (a : List Char), (∀ c ∈ a, isDigit c = true) →
    ∀ (r : List Char) (v n : ℕ),
      (r = [] ∨ ∃ c cs, r = c :: cs ∧ isDigit c = false ∧ c ≠ '_') →
      digpart (a ++ r) v n =
        (a.foldl (fun x c => 10 * x + digitVal c) v, n + a.length, r) := by
  intro a
  induction a with
  | nil => intro _ r v n hr; simpa using digpart_stop r v n hr
  | cons x a2 ih =>
    intro ha r v n hr
    have hx : isDigit x = true := ha x (by simp)
    have ha2 : ∀ c ∈ a2, isDigit c = true := fun c hc => ha c (by simp [hc])
    rcases h2 : a2 ++ r with _ | ⟨y, ys⟩
    · obtain ⟨h2a, h2r⟩ := List.append_eq_nil.mp h2
      subst h2a
      subst h2r
      simp [digpart, hx]
    · have hrw : (x :: a2) ++ r = x :: y :: ys := by simp [h2]
      rw [hrw]
      simp only [digpart, hx, if_true]
      rw [← h2, ih ha2 r (10 * v + digitVal x) (n + 1) hr]
      simp only [List.foldl_cons, List.length_cons, Prod.mk.injEq]
      exact ⟨by trivial, by omega, by trivial⟩

theorem digits0_digits (a r : List Char) (ha : ∀ c ∈ a, isDigit c = true)
    (hr : r = [] ∨ ∃ c cs, r = c :: cs ∧ isDigit c = false ∧ c ≠ '_') :
    digits0 (a ++ r) = (digitsVal a, a.length, r) := by
  cases a with
  | nil =>
    rcases hr with rfl | ⟨c, cs, rfl, hc, _⟩
    · rfl
    · simp [digits0, hc, digitsVal]
  | cons x a2 =>
    have hx : isDigit x = true := ha x (by simp)
    simp only [List.cons_append, digits0, hx, if_true]
    rw [← List.cons_append, digpart_digits (x :: a2) ha r 0 0 hr]
    simp [digitsVal]

theorem takedrop_dotfree (a : List Char) (ha : ∀ c ∈ a, isDigit c = true) :
    ∀ r : List Char,
      (a ++ r).takeWhile (fun c => c ≠ '.') =
        a ++ r.takeWhile (fun c => c ≠ '.') ∧
      (a ++ r).dropWhile (fun c => c ≠ '.') =
        r.dropWhile (fun c => c ≠ '.') := by
  induction a with
  | nil => intro r; simp
  | cons x a2 ih =>
    intro r
    have hx : x ≠ '.' := (digit_notin x (ha x (by simp))).1
    have ih2 := ih (fun c hc => ha c (by simp [hc])) r
    simp at ih2
    simp [List.takeWhile_cons, List.dropWhile_cons, hx, ih2.1, ih2.2]

theorem groupVal_digits (a : List Char) (ha : ∀ c ∈ a, isDigit c = true) :
    groupVal a = (digitsVal a : ℚ) := by
  obtain ⟨h1, h2⟩ := takedrop_dotfree a ha []
  rw [List.append_nil] at h1 h2
  rw [List.takeWhile_nil, List.append_nil] at h1
  rw [List.dropWhile_nil] at h2
  simp only [groupVal, h1, h2]

theorem groupVal_dot (a c : List Char) (ha : ∀ x ∈ a, isDigit x = true) :
    groupVal (a ++ '.' :: c) =
      (digitsVal a : ℚ) + (digitsVal c : ℚ) / (10 : ℚ) ^ c.length := by
  obtain ⟨h1, h2⟩ := takedrop_dotfree a ha ('.' :: c)
  have e1 : ('.' :: c).takeWhile (fun x => x ≠ '.') = ([] : List Char) := rfl
  have e2 : ('.' :: c).dropWhile (fun x => x ≠ '.') = '.' :: c := rfl
  rw [e1, List.append_nil] at h1
  rw [e2] at h2
  simp only [groupVal, h1, h2]

theorem dur_decomp : ∀ (p : List Char), (∀ c ∈ p, isDurChar c = true) →
    durOk p = true →
    ((∀ c ∈ p, isDigit c = true) ∧ p ≠ []) ∨
    (∃ a c, (∀ x ∈ a, isDigit x = true) ∧ (∀ x ∈ c, isDigit x = true) ∧
      c ≠ [] ∧ p = a ++ '.' :: c) := by
  intro p
  induction p with
  | nil => intro _ h; exact absurd h (by decide)
  | cons x xs ih =>
    intro hall hok
    simp only [durOk, Bool.and_eq_true] at hok
    obtain ⟨⟨hemp, hcnt⟩, hlast⟩ := hok
    by_cases hx : x = '.'
    · subst hx
      have hcnt2 : List.countP (fun c => decide (c = '.')) ('.' :: xs) ≤ 1 :=
        of_decide_eq_true hcnt
      rw [List.countP_cons] at hcnt2
      have e1 : (if (fun c => decide (c = '.')) '.' = true then 1 else 0) = 1 := rfl
      rw [e1] at hcnt2
      have hdots : xs.countP (fun c => decide (c = '.')) = 0 := by omega
      have hxsdig : ∀ c ∈ xs, isDigit c = true := by
        intro c hc
        rcases durChar_cases c (hall c (by simp [hc])) with hd | hd
        · exact hd
        · exact absurd hd (by
            have := List.countP_eq_zero.mp hdots c hc
            simpa using this)
      have hxne : xs ≠ [] := by
        intro he
        subst he
        exact absurd hlast (by decide)
      exact Or.inr ⟨[], xs, by simp, hxsdig, hxne, rfl⟩
    · have hxd : isDigit x = true := by
        rcases durChar_cases x (hall x (by simp)) with hd | hd
        · exact hd
        · exact absurd hd hx
      cases xs with
      | nil => exact Or.inl ⟨by simpa using hxd, by simp⟩
      | cons y ys =>
        have hcnt2 : List.countP (fun c => decide (c = '.')) (x :: y :: ys) ≤ 1 :=
          of_decide_eq_true hcnt
        rw [List.countP_cons] at hcnt2
        have hok2 : durOk (y :: ys) = true := by
          simp only [durOk, Bool.and_eq_true]
          refine ⟨⟨by simp, ?_⟩, ?_⟩
          · exact decide_eq_true (le_trans (Nat.le_add_right _ _) hcnt2)
          · rwa [List.getLast?_cons_cons] at hlast
        rcases ih (fun c hc => hall c (by simp [hc])) hok2 with
          ⟨hd, _⟩ | ⟨a, c, hadig, hcdig, hcne, heq⟩
        · exact Or.inl ⟨by
            intro c hc
            rcases List.mem_cons.mp hc with rfl | hc2
            · exact hxd
            · exact hd c hc2, by simp⟩
        · refine Or.inr ⟨x :: a, c, ?_, hcdig, hcne, by simp [heq]⟩
          intro z hz
          rcases List.mem_cons.mp hz with rfl | hz2
          · exact hxd
          · exact hadig z hz2

theorem pyfloat_unsigned (s : List Char) (hstrip : pystrip s = s)
    (hsign : ∀ c cs, s = c :: cs → c ≠ '+' ∧ c ≠ '-') :
    pyfloat s = pyfloatMag s false := by
  unfold pyfloat
  rw [hstrip]
  cases s with
  | nil => rfl
  | cons c cs =>
    rcases hsign c cs rfl with ⟨h1, h2⟩
    split <;> simp_all

theorem durGroup_not_special (p : List Char)
    (hall : ∀ c ∈ p, isDurChar c = true) :
    lowerList p = p ∧ lowerList p ≠ ("inf").toList ∧
      lowerList p ≠ ("infinity").toList ∧ lowerList p ≠ ("nan").toList := by
  have hlow : lowerList p = p := by
    rw [lowerList, List.map_congr_left (fun c hc => durChar_lower c (hall c hc))]
    simp
  refine ⟨hlow, ?_, ?_, ?_⟩ <;> rw [hlow]
  · intro he
    have : 'i' ∈ p := by rw [he]; decide
    exact absurd (hall _ this) (by decide)
  · intro he
    have : 'i' ∈ p := by rw [he]; decide
    exact absurd (hall _ this) (by decide)
  · intro he
    have : 'n' ∈ p := by rw [he]; decide
    exact absurd (hall _ this) (by decide)

theorem pyfloat_durGroup (p : List Char)
    (hall : ∀ c ∈ p, isDurChar c = true) (hok : durOk p = true) :
    pyfloat p = some (PyF.finite (groupVal p)) ∧ 0 ≤ groupVal p := by
  have hns : ∀ c ∈ p, isSpace c = false := by
    intro c hc
    rcases durChar_cases c (hall c hc) with hd | hd
    · exact (digit_notin c hd).2.2.2.2.1
    · subst hd; decide
  have hsign : ∀ c cs, p = c :: cs → c ≠ '+' ∧ c ≠ '-' := by
    intro c cs he
    have hc : isDurChar c = true := hall c (by simp [he])
    rcases durChar_cases c hc with hd | hd
    · exact ⟨(digit_notin c hd).2.2.1, (digit_notin c hd).2.2.2.1⟩
    · subst hd; exact ⟨by decide, by decide⟩
  have hmag := pyfloat_unsigned p (pystrip_no_space p hns) hsign
  obtain ⟨_, hinf1, hinf2, hnan⟩ := durGroup_not_special p hall
  rcases dur_decomp p hall hok with ⟨hdig, hne⟩ | ⟨a, c, hadig, hcdig, hcne, heq⟩
  · have hd0 : digits0 p = (digitsVal p, p.length, []) := by
      have := digits0_digits p [] hdig (Or.inl rfl)
      rwa [List.append_nil] at this
    have hlen : p.length ≠ 0 := fun h => hne (List.length_eq_zero.mp h)
    rw [hmag]
    rw [groupVal_digits p hdig]
    constructor
    · simp only [pyfloatMag, hd0]
      rw [if_neg (by
        intro hor
        rcases hor with h | h
        · exact hinf1 h
        · exact hinf2 h), if_neg hnan, if_neg (by simpa using hlen)]
      norm_num
    · positivity
  · subst heq
    have hd0 : digits0 (a ++ '.' :: c) = (digitsVal a, a.length, '.' :: c) :=
      digits0_digits a ('.' :: c) hadig (Or.inr ⟨'.', c, rfl, by decide, by decide⟩)
    have hd1 : digits0 c = (digitsVal c, c.length, []) := by
      have := digits0_digits c [] hcdig (Or.inl rfl)
      rwa [List.append_nil] at this
    have hclen : c.length ≠ 0 := fun h => hcne (List.length_eq_zero.mp h)
    rw [hmag, groupVal_dot a c hadig]
    constructor
    · simp only [pyfloatMag, hd0, hd1]
      rw [if_neg (by
        intro hor
        rcases hor with h | h
        · exact hinf1 h
        · exact hinf2 h), if_neg hnan,
        if_neg (fun hcontra => hclen (by omega))]
      simp
    · positivity

theorem dragMatch_some_group (s : List Char) (a b c d : Int) (p : List Char)
    (h : dragMatch s = some (a, b, c, d, some p)) :
    durOk p = true ∧ ∀ x ∈ p, isDurChar x = true := by
  unfold dragMatch at h
  repeat' split at h
  all_goals simp_all
  obtain ⟨⟨hok, -⟩, -, -, -, -, hp⟩ := h
  subst hp
  exact ⟨hok, fun x hx => List.mem_takeWhile_imp hx⟩

theorem processLine_drag_duration (raw : List Char) (x1 y1 x2 y2 : Int)
    (od : Option PyF) (h : processLine raw = .dragStep x1 y1 x2 y2 od) :
    ∀ d, od = some d → ∃ q : ℚ, d = PyF.finite q ∧ 0 ≤ q := by
  intro d hd
  subst hd
  simp only [processLine] at h
  split at h
  · simp at h
  · split at h
    · simp at h
    · split at h
      · repeat' split at h
        all_goals simp at h
      · repeat' split at h
        all_goals try simp at h
        rename_i val heq
        obtain ⟨-, -, -, -, p, hp, hfl⟩ := h
        subst hp
        obtain ⟨hok, hall⟩ := dragMatch_some_group _ _ _ _ _ _ heq
        obtain ⟨hpf, hnn⟩ := pyfloat_durGroup _ hall hok
        refine ⟨groupVal p, ?_, hnn⟩
        rw [← hfl]
        simp [floatOfGroup, hpf]

theorem parseLinesFrom_ok_steps (path : List Char) :
    ∀ (lines : List (List Char)) (n : ℕ) (steps : List Step),
      parseLinesFrom path n lines = .ok steps →
      ∀ st ∈ steps,
        (∃ v, st = Step.sleep v) ∨
        (∃ a b c d od raw, st = Step.drag a b c d od ∧
          processLine raw = .dragStep a b c d od) := by
  intro lines
  induction lines with
  | nil =>
    intro n steps h st hst
    simp only [parseLinesFrom] at h
    obtain rfl : ([] : List Step) = steps := by simpa using h
    simp at hst
  | cons raw rest ih =>
    intro n steps h st hst
    simp only [parseLinesFrom] at h
    split at h
    · exact ih _ _ h st hst
    · rename_i v heq
      cases hrec : parseLinesFrom path (n + 1) rest with
      | error e => rw [hrec] at h; simp [Except.map] at h
      | ok s0 =>
        rw [hrec] at h
        simp only [Except.map, Except.ok.injEq] at h
        subst h
        rcases List.mem_cons.mp hst with rfl | hmem
        · exact Or.inl ⟨v, rfl⟩
        · exact ih _ _ hrec st hmem
    · rename_i a b c d od heq
      cases hrec : parseLinesFrom path (n + 1) rest with
      | error e => rw [hrec] at h; simp [Except.map] at h
      | ok s0 =>
        rw [hrec] at h
        simp only [Except.map, Except.ok.injEq] at h
        subst h
        rcases List.mem_cons.mp hst with rfl | hmem
        · exact Or.inr ⟨a, b, c, d, od, raw, rfl, heq⟩
        · exact ih _ _ hrec st hmem
    · simp at h
    · simp at h
    · simp at h

theorem parseLinesFrom_error (path : List Char) :
    ∀ (lines : List (List Char)) (n : ℕ) (e : PError),
      parseLinesFrom path n lines = .error e →
      n ≤ e.idx ∧ e.idx - n < lines.length ∧
      (∃ raw, lines.get? (e.idx - n) = some raw ∧ errLine raw = true) ∧
      (∀ j, j < e.idx - n → ∀ r, lines.get? j = some r → errLine r = false) ∧
      (∃ tail, e.msg =
        path ++ (":").toList ++ showNat e.idx ++ (":").toList ++ tail) := by
  intro lines
  induction lines with
  | nil => intro n e h; simp [parseLinesFrom] at h
  | cons raw rest ih =>
    intro n e h
    have step : ∀ heq : errLine raw = false,
        parseLinesFrom path (n + 1) rest = .error e →
        n ≤ e.idx ∧ e.idx - n < (raw :: rest).length ∧
        (∃ r0, (raw :: rest).get? (e.idx - n) = some r0 ∧ errLine r0 = true) ∧
        (∀ j, j < e.idx - n → ∀ r, (raw :: rest).get? j = some r →
          errLine r = false) ∧
        (∃ tail, e.msg =
          path ++ (":").toList ++ showNat e.idx ++ (":").toList ++ tail) := by
      intro heq hrest
      obtain ⟨h1, h2, h3, h4, h5⟩ := ih (n + 1) e hrest
      refine ⟨by omega, by simp; omega, ?_, ?_, h5⟩
      · obtain ⟨r0, hr0, he0⟩ := h3
        refine ⟨r0, ?_, he0⟩
        have hidx : e.idx - n = (e.idx - (n + 1)) + 1 := by omega
        rw [hidx]
        simpa using hr0
      · intro j hj r hr
        cases j with
        | zero =>
          simp at hr
          subst hr
          exact heq
        | succ j2 =>
          exact h4 j2 (by omega) r (by simpa using hr)
    simp only [parseLinesFrom] at h
    split at h
    · exact step (by rename_i heq; simp [errLine, heq]) h
    · rename_i v heq
      cases hrec : parseLinesFrom path (n + 1) rest with
      | error e2 =>
        rw [hrec] at h
        simp only [Except.map] at h
        obtain rfl : e2 = e := by simpa using h
        exact step (by simp [errLine, heq]) hrec
      | ok s0 => rw [hrec] at h; simp [Except.map] at h
    · rename_i a b c d od heq
      cases hrec : parseLinesFrom path (n + 1) rest with
      | error e2 =>
        rw [hrec] at h
        simp only [Except.map] at h
        obtain rfl : e2 = e := by simpa using h
        exact step (by simp [errLine, heq]) hrec
      | ok s0 => rw [hrec] at h; simp [Except.map] at h
    · rename_i line heq
      obtain rfl : (⟨n, mkArityMsg path n line⟩ : PError) = e := by simpa using h
      refine ⟨le_refl n, by simp, ⟨raw, by simp, by simp [errLine, heq]⟩,
        fun j hj => by simp at hj, ?_⟩
      exact ⟨(" SLEEP requires one numeric value (seconds). Got: ").toList ++ line,
        by simp [mkArityMsg, List.append_assoc]⟩
    · rename_i tok heq
      obtain rfl : (⟨n, mkValueMsg path n tok⟩ : PError) = e := by simpa using h
      refine ⟨le_refl n, by simp, ⟨raw, by simp, by simp [errLine, heq]⟩,
        fun j hj => by simp at hj, ?_⟩
      exact ⟨(" Invalid SLEEP seconds: ").toList ++ tok,
        by simp [mkValueMsg, List.append_assoc]⟩
    · rename_i line heq
      obtain rfl : (⟨n, mkBadMsg path n line⟩ : PError) = e := by simpa using h
      refine ⟨le_refl n, by simp, ⟨raw, by simp, by simp [errLine, heq]⟩,
        fun j hj => by simp at hj, ?_⟩
      exact ⟨(" Invalid line. Expected \x27x1,y1 -> x2,y2[,duration]\x27. Got: ").toList
          ++ line,
        by simp [mkBadMsg, List.append_assoc]⟩

theorem space_not_digit (c : Char) (h : isSpace c = true) :
    isDigit c = false := by
  simp only [isSpace, Bool.or_eq_true, decide_eq_true_eq] at h
  rcases h with ((((e | e) | e) | e) | e) | e <;> (subst e; decide)

theorem space_not_durchar (c : Char) (h : isSpace c = true) :
    isDurChar c = false := by
  simp only [isSpace, Bool.or_eq_true, decide_eq_true_eq] at h
  rcases h with ((((e | e) | e) | e) | e) | e <;> (subst e; decide)

theorem skipWs_ws_append (w r : List Char) (hw : IsWsStr w) :
    skipWs (w ++ r) = skipWs r := by
  induction w with
  | nil => simp
  | cons c cs ih =>
    simp only [List.cons_append, skipWs, List.dropWhile_cons,
      hw c (by simp), if_true]
    exact ih (fun x hx => hw x (by simp [hx]))

theorem skipWs_head_not (r : List Char)
    (h : ∀ c, r.head? = some c → isSpace c = false) : skipWs r = r := by
  cases r with
  | nil => rfl
  | cons c cs => simp [skipWs, List.dropWhile_cons, h c rfl]

theorem skipWs_ws_nil (w : List Char) (hw : IsWsStr w) : skipWs w = [] := by
  have := skipWs_ws_append w [] hw
  simpa using this

theorem skipWs_sound (s : List Char) :
    IsWsStr (s.takeWhile isSpace) ∧ s = s.takeWhile isSpace ++ skipWs s :=
  ⟨fun _ hc => List.mem_takeWhile_imp hc,
    (List.takeWhile_append_dropWhile ..).symm⟩

theorem headNotDigit_ws_cons (w : List Char) (hw : IsWsStr w) (c0 : Char)
    (hc0 : isDigit c0 = false) (rest : List Char) :
    HeadNotDigit (w ++ c0 :: rest) := by
  intro c hc
  cases w with
  | nil =>
    simp at hc
    subst hc
    exact hc0
  | cons a l =>
    simp at hc
    subst hc
    exact space_not_digit a (hw a (by simp))

theorem headNotDigit_ws (w : List Char) (hw : IsWsStr w) : HeadNotDigit w := by
  intro c hc
  cases w with
  | nil => simp at hc
  | cons a l =>
    simp at hc
    subst hc
    exact space_not_digit a (hw a (by simp))

theorem digitsLoop_append (ds : List Char) (hds : ∀ c ∈ ds, isDigit c = true) :
    ∀ (r : List Char) (v : ℕ), HeadNotDigit r →
      digitsLoop (ds ++ r) v =
        (ds.foldl (fun x c => 10 * x + digitVal c) v, r) := by
  induction ds with
  | nil =>
    intro r v hr
    cases r with
    | nil => rfl
    | cons c cs => simp [digitsLoop, hr c rfl]
  | cons x ds2 ih =>
    intro r v hr
    have hx : isDigit x = true := hds x (by simp)
    simp only [List.cons_append, digitsLoop, hx, if_true, List.foldl_cons]
    exact ih (fun c hc => hds c (by simp [hc])) r (10 * v + digitVal x) hr

theorem digitsLoop_sound : ∀ (s : List Char) (v w : ℕ) (r : List Char),
    digitsLoop s v = (w, r) →
    ∃ ds, (∀ c ∈ ds, isDigit c = true) ∧ s = ds ++ r ∧
      w = ds.foldl (fun x c => 10 * x + digitVal c) v ∧ HeadNotDigit r := by
  intro s
  induction s with
  | nil =>
    intro v w r h
    simp only [digitsLoop, Prod.mk.injEq] at h
    obtain ⟨rfl, rfl⟩ := h
    exact ⟨[], by simp, by simp, rfl, fun c hc => by simp at hc⟩
  | cons c cs ih =>
    intro v w r h
    simp only [digitsLoop] at h
    by_cases hc : isDigit c = true
    · rw [if_pos hc] at h
      obtain ⟨ds, hds, hseq, hw, hr⟩ := ih (10 * v + digitVal c) w r h
      refine ⟨c :: ds, ?_, by simp [hseq], by simp [hw], hr⟩
      intro x hx
      rcases List.mem_cons.mp hx with rfl | hx2
      · exact hc
      · exact hds x hx2
    · rw [if_neg hc] at h
      simp only [Prod.mk.injEq] at h
      obtain ⟨rfl, rfl⟩ := h
      refine ⟨[], by simp, by simp, rfl, ?_⟩
      intro x hx
      simp only [List.head?_cons, Option.some.injEq] at hx
      subst hx
      simpa using hc

theorem matchInt_not_minus (s : List Char) (h : ∀ rest, s ≠ '-' :: rest) :
    matchInt s =
      match digitsPlain s with
      | some (v, r) => some ((v : Int), r)
      | none => none := by
  unfold matchInt
  split
  · rename_i rest
    exact absurd rfl (h rest)
  · rfl

theorem digitsPlain_complete (ds : List Char) (hne : ds ≠ [])
    (hdig : ∀ c ∈ ds, isDigit c = true) (r : List Char)
    (hr : HeadNotDigit r) :
    digitsPlain (ds ++ r) = some (digitsVal ds, r) := by
  obtain ⟨d0, ds2, rfl⟩ : ∃ d0 ds2, ds = d0 :: ds2 := by
    cases ds with
    | nil => exact absurd rfl hne
    | cons a l => exact ⟨a, l, rfl⟩
  have hd0 : isDigit d0 = true := hdig d0 (by simp)
  simp only [List.cons_append, digitsPlain, hd0, if_true, ← List.cons_append]
  rw [digitsLoop_append (d0 :: ds2) hdig r 0 hr]
  simp [hd0, digitsVal]

theorem digitsPlain_sound (s : List Char) (w : ℕ) (r : List Char)
    (h : digitsPlain s = some (w, r)) :
    ∃ ds, ds ≠ [] ∧ (∀ c ∈ ds, isDigit c = true) ∧ s = ds ++ r ∧
      w = digitsVal ds ∧ HeadNotDigit r := by
  cases s with
  | nil => simp [digitsPlain] at h
  | cons c cs =>
    simp only [digitsPlain] at h
    by_cases hc : isDigit c = true
    · rw [if_pos hc] at h
      have hdl : digitsLoop (c :: cs) 0 = (w, r) := by simpa using h
      obtain ⟨ds, hds, hseq, hw, hr⟩ := digitsLoop_sound (c :: cs) 0 w r hdl
      have hdsne : ds ≠ [] := by
        intro he
        subst he
        simp only [List.nil_append] at hseq
        subst hseq
        exact absurd hc (by simp [hr c rfl])
      exact ⟨ds, hdsne, hds, hseq, by simp [hw, digitsVal], hr⟩
    · rw [if_neg hc] at h
      simp at h

theorem matchInt_complete (t : List Char) (v : Int) (ht : IsIntTok t v)
    (r : List Char) (hr : HeadNotDigit r) :
    matchInt (t ++ r) = some (v, r) := by
  rcases ht with ⟨ds, hne, hdig, rfl, rfl⟩ | ⟨ds, hne, hdig, rfl, rfl⟩
  · have hmin : ∀ rest, t ++ r ≠ '-' :: rest := by
      intro rest heq
      obtain ⟨d0, ds2, rfl⟩ : ∃ d0 ds2, t = d0 :: ds2 := by
        cases t with
        | nil => exact absurd rfl hne
        | cons a l => exact ⟨a, l, rfl⟩
      simp only [List.cons_append, List.cons.injEq] at heq
      exact (digit_notin d0 (hdig d0 (by simp))).2.2.2.1 heq.1
    rw [matchInt_not_minus (t ++ r) hmin,
      digitsPlain_complete t hne hdig r hr]
  · show matchInt ('-' :: (ds ++ r)) = _
    have e : matchInt ('-' :: (ds ++ r)) =
        (match digitsPlain (ds ++ r) with
         | some (w, r2) => some (-(w : Int), r2)
         | none => none) := rfl
    rw [e, digitsPlain_complete ds hne hdig r hr]

theorem matchInt_sound (s : List Char) (v : Int) (r : List Char)
    (h : matchInt s = some (v, r)) :
    ∃ t, IsIntTok t v ∧ s = t ++ r ∧ HeadNotDigit r := by
  cases s with
  | nil => simp [matchInt, digitsPlain] at h
  | cons c0 s0 =>
    by_cases hm : c0 = '-'
    · subst hm
      have h2 : (match digitsPlain s0 with
          | some (w, r2) => some (-(w : Int), r2)
          | none => none) = some (v, r) := h
      cases hdp : digitsPlain s0 with
      | none => rw [hdp] at h2; simp at h2
      | some p =>
        obtain ⟨w, r2⟩ := p
        rw [hdp] at h2
        simp only [Option.some.injEq, Prod.mk.injEq] at h2
        obtain ⟨rfl, rfl⟩ := h2
        obtain ⟨ds, hdsne, hds, hseq, hwv, hr⟩ := digitsPlain_sound s0 w r2 hdp
        refine ⟨'-' :: ds,
          Or.inr ⟨ds, hdsne, hds, rfl, by simp [hwv]⟩, by simp [hseq], hr⟩
    · rw [matchInt_not_minus (c0 :: s0) (by
        intro rest heq
        injection heq with e _
        exact hm e)] at h
      cases hdp : digitsPlain (c0 :: s0) with
      | none => rw [hdp] at h; simp at h
      | some p =>
        obtain ⟨w, r2⟩ := p
        rw [hdp] at h
        simp only [Option.some.injEq, Prod.mk.injEq] at h
        obtain ⟨rfl, rfl⟩ := h
        obtain ⟨ds, hdsne, hds, hseq, hwv, hr⟩ :=
          digitsPlain_sound (c0 :: s0) w r2 hdp
        exact ⟨ds, Or.inl ⟨ds, hdsne, hds, rfl, by simp [hwv]⟩, hseq, hr⟩

theorem takeWhile_append_sat (p : Char → Bool) :
    ∀ (d w : List Char), (∀ c ∈ d, p c = true) →
      (∀ c, w.head? = some c → p c = false) →
      (d ++ w).takeWhile p = d ∧ (d ++ w).dropWhile p = w := by
  intro d
  induction d with
  | nil =>
    intro w _ hw
    cases w with
    | nil => exact ⟨rfl, rfl⟩
    | cons c cs =>
      exact ⟨by simp [List.takeWhile_cons, hw c rfl],
        by simp [List.dropWhile_cons, hw c rfl]⟩
  | cons x d2 ih =>
    intro w hd hw
    have hx : p x = true := hd x (by simp)
    have ih2 := ih w (fun c hc => hd c (by simp [hc])) hw
    simp [List.takeWhile_cons, List.dropWhile_cons, hx, ih2.1, ih2.2]

theorem getLast_some_of_ne_nil (l : List Char) (h : l ≠ []) :
    ∃ x, l.getLast? = some x ∧ x ∈ l := by
  cases hgl : l.getLast? with
  | some x => exact ⟨x, rfl, List.mem_of_mem_getLast? (by rw [hgl]; rfl)⟩
  | none =>
    rw [← List.head?_reverse, List.head?_eq_none_iff,
      List.reverse_eq_nil_iff] at hgl
    exact absurd hgl h

theorem durTok_complete (d : List Char) (q : ℚ) (h : IsDurTok d q) :
    (∀ x ∈ d, isDurChar x = true) ∧ durOk d = true ∧ groupVal d = q ∧
      d ≠ [] := by
  rcases h with ⟨ds, hne, hdig, rfl, rfl⟩ | ⟨a, c, hadig, hcdig, hcne, rfl, rfl⟩
  · refine ⟨fun x hx => by simp [isDurChar, hdig x hx], ?_,
      groupVal_digits d hdig, hne⟩
    simp only [durOk, Bool.and_eq_true]
    refine ⟨⟨by simpa using hne, ?_⟩, ?_⟩
    · have hz : d.countP (fun c => decide (c = '.')) = 0 :=
        List.countP_eq_zero.mpr
          (fun x hx => by simp [(digit_notin x (hdig x hx)).1])
      simp [hz]
    · obtain ⟨x, hx, hmem⟩ := getLast_some_of_ne_nil d hne
      rw [hx]
      simpa using hdig x hmem
  · have hall : ∀ x ∈ a ++ '.' :: c, isDurChar x = true := by
      intro x hx
      rcases List.mem_append.mp hx with hx2 | hx2
      · simp [isDurChar, hadig x hx2]
      · rcases List.mem_cons.mp hx2 with rfl | hx3
        · decide
        · simp [isDurChar, hcdig x hx3]
    refine ⟨hall, ?_, groupVal_dot a c hadig, by simp⟩
    simp only [durOk, Bool.and_eq_true]
    refine ⟨⟨by simp, ?_⟩, ?_⟩
    · have hza : a.countP (fun c => decide (c = '.')) = 0 :=
        List.countP_eq_zero.mpr
          (fun x hx => by simp [(digit_notin x (hadig x hx)).1])
      have hzc : c.countP (fun x => decide (x = '.')) = 0 :=
        List.countP_eq_zero.mpr
          (fun x hx => by simp [(digit_notin x (hcdig x hx)).1])
      simp [List.countP_append, List.countP_cons, hza, hzc]
    · obtain ⟨c0, cs, rfl⟩ : ∃ c0 cs, c = c0 :: cs := by
        cases c with
        | nil => exact absurd rfl hcne
        | cons z l => exact ⟨z, l, rfl⟩
      rw [List.getLast?_append_of_ne_nil _ (by simp),
        List.getLast?_cons_cons]
      obtain ⟨x, hx, hmem⟩ := getLast_some_of_ne_nil (c0 :: cs) (by simp)
      rw [hx]
      simpa using hcdig x hmem

theorem durTok_of_durOk (p : List Char) (hall : ∀ x ∈ p, isDurChar x = true)
    (hok : durOk p = true) : IsDurTok p (groupVal p) := by
  rcases dur_decomp p hall hok with ⟨hdig, hne⟩ | ⟨a, c, ha, hc, hcne, rfl⟩
  · exact Or.inl ⟨p, hne, hdig, rfl, groupVal_digits p hdig⟩
  · exact Or.inr ⟨a, c, ha, hc, hcne, rfl, groupVal_dot a c ha⟩

theorem intTok_ne_nil (t : List Char) (v : Int) (ht : IsIntTok t v) :
    t ≠ [] := by
  rcases ht with ⟨ds, hne, -, rfl, -⟩ | ⟨ds, -, -, rfl, -⟩
  · exact hne
  · simp

theorem intTok_head_not_space (t : List Char) (v : Int) (ht : IsIntTok t v) :
    ∀ c, t.head? = some c → isSpace c = false := by
  intro c hc
  rcases ht with ⟨ds, hne, hdig, rfl, -⟩ | ⟨ds, hne, hdig, rfl, -⟩
  · exact (digit_notin c (hdig c
      (List.mem_of_mem_head? (by rw [hc]; rfl)))).2.2.2.2.1
  · simp only [List.head?_cons, Option.some.injEq] at hc
    subst hc
    decide

theorem durTok_head_not_space (d : List Char) (q : ℚ) (hd : IsDurTok d q) :
    ∀ c, d.head? = some c → isSpace c = false := by
  intro c hc
  have hmem : c ∈ d := List.mem_of_mem_head? (by rw [hc]; rfl)
  have hdc := (durTok_complete d q hd).1 c hmem
  rcases durChar_cases c hdc with h2 | h2
  · exact (digit_notin c h2).2.2.2.2.1
  · subst h2; decide

theorem head_not_space_append (t r : List Char) (htne : t ≠ [])
    (ht : ∀ c, t.head? = some c → isSpace c = false) :
    ∀ c, (t ++ r).head? = some c → isSpace c = false := by
  cases t with
  | nil => exact absurd rfl htne
  | cons a l =>
    intro c hc
    simp only [List.cons_append, List.head?_cons, Option.some.injEq] at hc
    subst hc
    exact ht a rfl

theorem skipWs_to (w r : List Char) (hw : IsWsStr w)
    (hr : ∀ c, r.head? = some c → isSpace c = false) :
    skipWs (w ++ r) = r := by
  rw [skipWs_ws_append w r hw, skipWs_head_not r hr]

theorem dragMatch_complete (line : List Char) (x1 y1 x2 y2 : Int)
    (od : Option ℚ) (h : DragDecomp line x1 y1 x2 y2 od) :
    (od = none → dragMatch line = some (x1, y1, x2, y2, none)) ∧
    (∀ q, od = some q → ∃ p, dragMatch line = some (x1, y1, x2, y2, some p) ∧
      floatOfGroup p = PyF.finite q ∧ IsDurTok p q) := by
  obtain ⟨w0, t1, w1, w2, t2, w3, w4, t3, w5, w6, t4, tail, hw0, hw1, hw2, hw3,
    hw4, hw5, hw6, ht1, ht2, ht3, ht4, hline, htail⟩ := h
  simp only [List.append_assoc] at hline
  have hndTail : HeadNotDigit tail := by
    cases hod : od with
    | none => rw [hod] at htail; exact headNotDigit_ws tail htail
    | some q =>
      rw [hod] at htail
      obtain ⟨w7, w8, dtok, w9, hw7, hw8, hw9, hdtok, rfl⟩ := htail
      exact headNotDigit_ws_cons w7 hw7 ',' (by decide) _
  have eA : skipWs line =
      t1 ++ (w1 ++ ',' :: (w2 ++ (t2 ++ (w3 ++ '-' :: '>' ::
        (w4 ++ (t3 ++ (w5 ++ ',' :: (w6 ++ (t4 ++ tail))))))))) := by
    rw [hline]
    exact skipWs_to w0 _ hw0 (head_not_space_append t1 _
      (intTok_ne_nil t1 x1 ht1) (intTok_head_not_space t1 x1 ht1))
  have eB : matchInt (t1 ++ (w1 ++ ',' :: (w2 ++ (t2 ++ (w3 ++ '-' :: '>' ::
      (w4 ++ (t3 ++ (w5 ++ ',' :: (w6 ++ (t4 ++ tail)))))))))) =
      some (x1, w1 ++ ',' :: (w2 ++ (t2 ++ (w3 ++ '-' :: '>' ::
        (w4 ++ (t3 ++ (w5 ++ ',' :: (w6 ++ (t4 ++ tail))))))))) :=
    matchInt_complete t1 x1 ht1 _ (headNotDigit_ws_cons w1 hw1 ',' (by decide) _)
  have eC : skipWs (w1 ++ ',' :: (w2 ++ (t2 ++ (w3 ++ '-' :: '>' ::
      (w4 ++ (t3 ++ (w5 ++ ',' :: (w6 ++ (t4 ++ tail))))))))) =
      ',' :: (w2 ++ (t2 ++ (w3 ++ '-' :: '>' ::
        (w4 ++ (t3 ++ (w5 ++ ',' :: (w6 ++ (t4 ++ tail)))))))) :=
    skipWs_to w1 _ hw1 (by
      intro c hc
      simp only [List.head?_cons, Option.some.injEq] at hc
      subst hc
      decide)
  have eD : skipWs (w2 ++ (t2 ++ (w3 ++ '-' :: '>' ::
      (w4 ++ (t3 ++ (w5 ++ ',' :: (w6 ++ (t4 ++ tail)))))))) =
      t2 ++ (w3 ++ '-' :: '>' ::
        (w4 ++ (t3 ++ (w5 ++ ',' :: (w6 ++ (t4 ++ tail)))))) :=
    skipWs_to w2 _ hw2 (head_not_space_append t2 _
      (intTok_ne_nil t2 y1 ht2) (intTok_head_not_space t2 y1 ht2))
  have eE : matchInt (t2 ++ (w3 ++ '-' :: '>' ::
      (w4 ++ (t3 ++ (w5 ++ ',' :: (w6 ++ (t4 ++ tail))))))) =
      some (y1, w3 ++ '-' :: '>' ::
        (w4 ++ (t3 ++ (w5 ++ ',' :: (w6 ++ (t4 ++ tail)))))) :=
    matchInt_complete t2 y1 ht2 _ (headNotDigit_ws_cons w3 hw3 '-' (by decide) _)
  have eF : skipWs (w3 ++ '-' :: '>' ::
      (w4 ++ (t3 ++ (w5 ++ ',' :: (w6 ++ (t4 ++ tail)))))) =
      '-' :: '>' :: (w4 ++ (t3 ++ (w5 ++ ',' :: (w6 ++ (t4 ++ tail))))) :=
    skipWs_to w3 _ hw3 (by
      intro c hc
      simp only [List.head?_cons, Option.some.injEq] at hc
      subst hc
      decide)
  have eG : skipWs (w4 ++ (t3 ++ (w5 ++ ',' :: (w6 ++ (t4 ++ tail))))) =
      t3 ++ (w5 ++ ',' :: (w6 ++ (t4 ++ tail))) :=
    skipWs_to w4 _ hw4 (head_not_space_append t3 _
      (intTok_ne_nil t3 x2 ht3) (intTok_head_not_space t3 x2 ht3))
  have eH : matchInt (t3 ++ (w5 ++ ',' :: (w6 ++ (t4 ++ tail)))) =
      some (x2, w5 ++ ',' :: (w6 ++ (t4 ++ tail))) :=
    matchInt_complete t3 x2 ht3 _ (headNotDigit_ws_cons w5 hw5 ',' (by decide) _)
  have eI : skipWs (w5 ++ ',' :: (w6 ++ (t4 ++ tail))) =
      ',' :: (w6 ++ (t4 ++ tail)) :=
    skipWs_to w5 _ hw5 (by
      intro c hc
      simp only [List.head?_cons, Option.some.injEq] at hc
      subst hc
      decide)
  have eJ : skipWs (w6 ++ (t4 ++ tail)) = t4 ++ tail :=
    skipWs_to w6 _ hw6 (head_not_space_append t4 _
      (intTok_ne_nil t4 y2 ht4) (intTok_head_not_space t4 y2 ht4))
  have eK : matchInt (t4 ++ tail) = some (y2, tail) :=
    matchInt_complete t4 y2 ht4 _ hndTail
  constructor
  · intro hod
    subst hod
    have hwt : IsWsStr tail := htail
    have eL : skipWs tail = [] := skipWs_ws_nil tail hwt
    simp only [dragMatch, eA, eB, eC, eD, eE, eF, eG, eH, eI, eJ, eK, eL]
  · intro q hod
    subst hod
    obtain ⟨w7, w8, dtok, w9, hw7, hw8, hw9, hdtok, rfl⟩ := htail
    obtain ⟨hdall, hdok, hdval, hdne⟩ := durTok_complete dtok q hdtok
    have eL : skipWs (w7 ++ ',' :: (w8 ++ dtok ++ w9)) =
        ',' :: (w8 ++ dtok ++ w9) :=
      skipWs_to w7 _ hw7 (by
        intro c hc
        simp only [List.head?_cons, Option.some.injEq] at hc
        subst hc
        decide)
    have eM : skipWs (w8 ++ dtok ++ w9) = dtok ++ w9 := by
      rw [List.append_assoc]
      exact skipWs_to w8 _ hw8 (head_not_space_append dtok _ hdne
        (durTok_head_not_space dtok q hdtok))
    have hw9head : ∀ c, w9.head? = some c → isDurChar c = false := by
      intro c hc
      exact space_not_durchar c (hw9 c
        (List.mem_of_mem_head? (by rw [hc]; rfl)))
    obtain ⟨eN, eO⟩ := takeWhile_append_sat isDurChar dtok w9 hdall hw9head
    have eP : w9.all isSpace = true := List.all_eq_true.mpr hw9
    refine ⟨dtok, ?_, ?_, hdtok⟩
    · simp only [dragMatch, eA, eB, eC, eD, eE, eF, eG, eH, eI, eJ, eK, eL,
        eM, eN, eO, hdok, eP, Bool.and_self, if_true]
    · obtain ⟨hpf, -⟩ := pyfloat_durGroup dtok hdall hdok
      rw [floatOfGroup, hpf, hdval]
      rfl

theorem dragMatch_sound (line : List Char) (a b c d : Int)
    (og : Option (List Char)) (h : dragMatch line = some (a, b, c, d, og)) :
    ∃ od, DragDecomp line a b c d od := by
  unfold dragMatch at h
  repeat' split at h
  all_goals try (exfalso; simp at h; done)
  · -- no-duration branch
    rename_i x7 v1 r1 he1 x6 r2 he2 x5 v2 r3 he3 x4 r4a he4 x3 v3 r5 he5
      x2 r6a he6 x1 v4 r7a he7 x0 he8
    simp only [Option.some.injEq, Prod.mk.injEq] at h
    obtain ⟨rfl, rfl, rfl, rfl, rfl⟩ := h
    obtain ⟨t1, ht1, hs1, -⟩ := matchInt_sound _ _ _ he1
    obtain ⟨t2, ht2, hs2, -⟩ := matchInt_sound _ _ _ he3
    obtain ⟨t3, ht3, hs3, -⟩ := matchInt_sound _ _ _ he5
    obtain ⟨t4, ht4, hs4, -⟩ := matchInt_sound _ _ _ he7
    have hwt : IsWsStr r7a := by
      simp only [skipWs] at he8
      exact List.dropWhile_eq_nil_iff.mp he8
    refine ⟨none, line.takeWhile isSpace, t1, r1.takeWhile isSpace,
      r2.takeWhile isSpace, t2, r3.takeWhile isSpace, r4a.takeWhile isSpace,
      t3, r5.takeWhile isSpace, r6a.takeWhile isSpace, t4, r7a,
      (skipWs_sound line).1, (skipWs_sound r1).1, (skipWs_sound r2).1,
      (skipWs_sound r3).1, (skipWs_sound r4a).1, (skipWs_sound r5).1,
      (skipWs_sound r6a).1, ht1, ht2, ht3, ht4, ?_, hwt⟩
    conv_lhs => rw [(skipWs_sound line).2, hs1, (skipWs_sound r1).2, he2,
      (skipWs_sound r2).2, hs2, (skipWs_sound r3).2, he4,
      (skipWs_sound r4a).2, hs3, (skipWs_sound r5).2, he6,
      (skipWs_sound r6a).2, hs4]
    simp [List.append_assoc]
  · -- duration branch
    rename_i x7 v1 r1 he1 x6 r2 he2 x5 v2 r3 he3 x4 r4a he4 x3 v3 r5 he5
      x2 r6a he6 x1 v4 r7a he7 x0 r9a he8
    have h2 : (if (durOk ((skipWs r9a).takeWhile isDurChar) &&
        ((skipWs r9a).dropWhile isDurChar).all isSpace) = true then
        some (v1, v2, v3, v4, some ((skipWs r9a).takeWhile isDurChar))
      else none) = some (a, b, c, d, og) := h
    by_cases hcond : (durOk ((skipWs r9a).takeWhile isDurChar) &&
        ((skipWs r9a).dropWhile isDurChar).all isSpace) = true
    · rw [if_pos hcond] at h2
      simp only [Option.some.injEq, Prod.mk.injEq] at h2
      obtain ⟨rfl, rfl, rfl, rfl, rfl⟩ := h2
      simp only [Bool.and_eq_true] at hcond
      obtain ⟨hok, hall⟩ := hcond
      obtain ⟨t1, ht1, hs1, -⟩ := matchInt_sound _ _ _ he1
      obtain ⟨t2, ht2, hs2, -⟩ := matchInt_sound _ _ _ he3
      obtain ⟨t3, ht3, hs3, -⟩ := matchInt_sound _ _ _ he5
      obtain ⟨t4, ht4, hs4, -⟩ := matchInt_sound _ _ _ he7
      refine ⟨some (groupVal ((skipWs r9a).takeWhile isDurChar)),
        line.takeWhile isSpace, t1, r1.takeWhile isSpace,
        r2.takeWhile isSpace, t2, r3.takeWhile isSpace, r4a.takeWhile isSpace,
        t3, r5.takeWhile isSpace, r6a.takeWhile isSpace, t4, r7a,
        (skipWs_sound line).1, (skipWs_sound r1).1, (skipWs_sound r2).1,
        (skipWs_sound r3).1, (skipWs_sound r4a).1, (skipWs_sound r5).1,
        (skipWs_sound r6a).1, ht1, ht2, ht3, ht4, ?_, ?_⟩
      · conv_lhs => rw [(skipWs_sound line).2, hs1, (skipWs_sound r1).2, he2,
          (skipWs_sound r2).2, hs2, (skipWs_sound r3).2, he4,
          (skipWs_sound r4a).2, hs3, (skipWs_sound r5).2, he6,
          (skipWs_sound r6a).2, hs4]
        simp [List.append_assoc]
      · refine ⟨r7a.takeWhile isSpace, r9a.takeWhile isSpace,
          (skipWs r9a).takeWhile isDurChar, (skipWs r9a).dropWhile isDurChar,
          (skipWs_sound r7a).1, (skipWs_sound r9a).1,
          List.all_eq_true.mp hall,
          durTok_of_durOk _ (fun x hx => List.mem_takeWhile_imp hx) hok, ?_⟩
        conv_lhs => rw [(skipWs_sound r7a).2, he8, (skipWs_sound r9a).2]
        simp [List.append_assoc, List.takeWhile_append_dropWhile]
    · rw [if_neg hcond] at h2
      simp at h2

theorem processLine_cons (c : Char) (cs raw : List Char)
    (h : pystrip raw = c :: cs) (hc : c ≠ '#') :
    processLine raw =
      if sleepKw.isPrefixOf (upperList (c :: cs)) then
        match pysplit (c :: cs) with
        | [_, tok] =>
          match pyfloat tok with
          | some v => LineResult.sleepStep v
          | none => LineResult.errSleepValue tok
        | _ => LineResult.errSleepArity (c :: cs)
      else
        match dragMatch (c :: cs) with
        | some (x1, y1, x2, y2, d) => LineResult.dragStep x1 y1 x2 y2 (d.map floatOfGroup)
        | none => LineResult.errBadLine (c :: cs) := by
  simp only [processLine, h]
  rw [if_neg hc]

/-! ### Claim theorems -/

/-- C1 counterexample: the step sequence `[Sleep 1.0]` is non-empty, yet a
normally completing run invokes `mouseUp` zero times (the executor returns
at the no-DRAG early exit before ever pressing, so nothing is released). -/
theorem release_missing_for_sleep_only_sequence :
    ([Step.sleep (PyF.finite 1)] : List Step) ≠ [] ∧
    ((run_single_hold [Step.sleep (PyF.finite 1)] (3 / 2) ("left").toList 0
        none).1.countP isMouseUp) = 0 := by
  exact ⟨by simp, by decide⟩

/-- C1 (amended): for every StepSequence containing at least one Drag
step, `run_single_hold` invokes `mouseUp` exactly once, on every exit
path: normal completion (`abortAt = none`) and any failsafe abort or user
interrupt raised mid-iteration (`abortAt = some k`). -/
theorem release_once_with_drag (steps : List Step) (dd : ℚ) (b : List Char)
    (bd : ℚ) (ab : Option ℕ) (h : 0 < steps.countP isDragStep) :
    ((run_single_hold steps dd b bd ab).1.countP isMouseUp) = 1 := by
  cases hsome : firstDrag steps with
  | none =>
    rw [firstDrag_none_iff] at hsome
    omega
  | some fd =>
    obtain ⟨x1, y1, x2, y2, d⟩ := fd
    rw [List.countP_eq_length_filter]
    simp [run_single_hold, hsome, List.filter_append, isMouseUp,
      (runLoop_no_mouse dd bd steps x1 y1 0 ab).1]

theorem release_once_with_drag_witness :
    ((run_single_hold [Step.drag 0 0 1 1 none] 1 ("left").toList 0
        none).1.countP isMouseUp) = 1 :=
  release_once_with_drag [Step.drag 0 0 1 1 none] 1 ("left").toList 0 none
    (by decide)

/-- C2: for every StepSequence with zero Drag steps, the run emits only
the no-op notice and returns (no exception), never invoking `mouseDown`
or `mouseUp` — for every abort schedule. -/
theorem zero_drag_noop (steps : List Step) (dd : ℚ) (b : List Char)
    (bd : ℚ) (ab : Option ℕ) (h : steps.countP isDragStep = 0) :
    run_single_hold steps dd b bd ab = ([Ev.printNoop], false) ∧
    (run_single_hold steps dd b bd ab).1.countP isMouseDown = 0 ∧
    (run_single_hold steps dd b bd ab).1.countP isMouseUp = 0 := by
  have hfd : firstDrag steps = none := (firstDrag_none_iff steps).mpr h
  refine ⟨?_, ?_, ?_⟩ <;>
    simp [run_single_hold, hfd, isMouseDown, isMouseUp, List.countP_cons]

theorem zero_drag_noop_witness :
    run_single_hold [Step.sleep (PyF.finite (1 / 2))] 1 ("left").toList 0
        (some 0) = ([Ev.printNoop], false) :=
  (zero_drag_noop [Step.sleep (PyF.finite (1 / 2))] 1 ("left").toList 0
    (some 0) (by decide)).1

/-- C6: (i) a Drag step whose declared start differs from the tracked
current position contributes exactly the block: one warning, one
zero-duration reposition to the start, then the numbered notice and the
timed eased move to its end — before anything else, never fatally
(execution continues with the rest, and the abort flag comes from the
rest alone); (ii) globally, the number of warnings and of zero-duration
repositions each equal the number of discontinuous Drag steps. -/
theorem discontinuity_warn_connector :
    (∀ (dd bd : ℚ) (sx sy ex ey cx cy : Int) (dur : Option PyF)
        (rest : List Step) (k : ℕ), (sx, sy) ≠ (cx, cy) →
      runLoop dd bd (Step.drag sx sy ex ey dur :: rest) cx cy k none =
        (Ev.printWarn sx sy cx cy :: Ev.connectorMove sx sy ::
          Ev.printMove (k + 1) sx sy ex ey (dur.getD (PyF.finite dd)) ::
          Ev.easedMove ex ey (dur.getD (PyF.finite dd)) ::
          ((if 0 < bd then [Ev.betweenSleep (PyF.finite bd)] else []) ++
            (runLoop dd bd rest ex ey (k + 1) none).1),
          (runLoop dd bd rest ex ey (k + 1) none).2)) ∧
    (∀ (dd bd : ℚ) (steps : List Step) (cx cy : Int) (k : ℕ),
      (runLoop dd bd steps cx cy k none).1.countP isWarnEv =
        discCount steps cx cy ∧
      (runLoop dd bd steps cx cy k none).1.countP isConnEv =
        discCount steps cx cy) := by
  constructor
  · intro dd bd sx sy ex ey cx cy dur rest k hm
    simp [runLoop, hm]
  · intro dd bd steps cx cy k
    exact runLoop_warn_counts dd bd steps cx cy k

theorem discontinuity_warn_connector_witness :
    runLoop 1 0 [Step.drag 5 5 9 9 none] 0 0 0 none =
      ([Ev.printWarn 5 5 0 0, Ev.connectorMove 5 5,
        Ev.printMove 1 5 5 9 9 (PyF.finite 1), Ev.easedMove 9 9 (PyF.finite 1)],
        false) := by
  have h := discontinuity_warn_connector.1 1 0 5 5 9 9 0 0 none [] 0 (by decide)
  rw [h]
  simp [runLoop]

/-- C7: the three-line worked example parses to exactly the specified
step list, and executing that list (default duration 1.5, left button,
no between-delay, no abort) produces the backend-call trace: move to the
start and press left there, eased move to (-961,494) over 1.0s, sleep
0.1s, eased move to (-1260,494) over 1.0s, release. -/
theorem three_line_example :
    parse_file ("motions.txt").toList exampleLines = .ok exampleSteps ∧
    backendCalls (run_single_hold exampleSteps (3 / 2) ("left").toList 0
        none).1 =
      [Ev.moveToStart (-660) 663, Ev.mouseDown ("left").toList,
       Ev.easedMove (-961) 494 (PyF.finite 1),
       Ev.sleepCall (PyF.finite (1 / 10)),
       Ev.easedMove (-1260) 494 (PyF.finite 1),
       Ev.mouseUp ("left").toList] := by
  constructor
  · simp +decide [parse_file, parseLinesFrom, processLine, pystrip, pysplit,
      splitAux, upperList, upperChar, sleepKw, dragMatch, matchInt, digitsPlain,
      digitsLoop, skipWs, durOk, isDurChar, floatOfGroup, pyfloat, pyfloatMag,
      digits0, digpart, lowerList, lowerChar, isSpace, isDigit, digitVal,
      exampleLines, exampleSteps, Except.map]
  · rfl

/-- C10: (i) in every run that presses at all, the single `mouseDown` and
the single `mouseUp` both carry the normalized button `normBtn b`;
(ii) when the lowercased button is none of left/right/middle, the
substitute is "left" (silently, never failing); (iii) the button actually
used is always either the lowercased configured one or "left". -/
theorem button_normalized_and_reused :
    (∀ (b : List Char) (steps : List Step) (dd bd : ℚ) (ab : Option ℕ),
      0 < steps.countP isDragStep →
      (run_single_hold steps dd b bd ab).1.filter isMouseDown =
          [Ev.mouseDown (normBtn b)] ∧
      (run_single_hold steps dd b bd ab).1.filter isMouseUp =
          [Ev.mouseUp (normBtn b)]) ∧
    (∀ b : List Char, lowerList b ≠ ("left").toList →
      lowerList b ≠ ("right").toList → lowerList b ≠ ("middle").toList →
      normBtn b = ("left").toList) ∧
    (∀ b : List Char, normBtn b = lowerList b ∨ normBtn b = ("left").toList) := by
  refine ⟨?_, ?_, ?_⟩
  · intro b steps dd bd ab h
    cases hsome : firstDrag steps with
    | none =>
      rw [firstDrag_none_iff] at hsome
      omega
    | some fd =>
      obtain ⟨x1, y1, x2, y2, d⟩ := fd
      constructor <;>
        simp [run_single_hold, hsome, List.filter_append, isMouseUp, isMouseDown,
          (runLoop_no_mouse dd bd steps x1 y1 0 ab).1,
          (runLoop_no_mouse dd bd steps x1 y1 0 ab).2]
  · intro b h1 h2 h3
    have hn : ¬(lowerList b = ("left").toList ∨ lowerList b = ("right").toList ∨
        lowerList b = ("middle").toList) := by
      push_neg
      exact ⟨h1, h2, h3⟩
    simp only [normBtn, if_neg hn]
  · intro b
    by_cases h : lowerList b = ("left").toList ∨ lowerList b = ("right").toList ∨
        lowerList b = ("middle").toList
    · left
      simp only [normBtn, if_pos h]
    · right
      simp only [normBtn, if_neg h]

theorem button_normalized_and_reused_witness :
    (run_single_hold [Step.drag 0 0 1 1 none] 1 ("MIDDLE").toList 0
        none).1.filter isMouseUp = [Ev.mouseUp ("middle").toList] ∧
    normBtn ("wheel").toList = ("left").toList := by
  constructor
  · have h := (button_normalized_and_reused.1 ("MIDDLE").toList
      [Step.drag 0 0 1 1 none] 1 0 none (by decide)).2
    simpa [normBtn, lowerList, lowerChar] using h
  · exact button_normalized_and_reused.2.1 ("wheel").toList (by decide)
      (by decide) (by decide)

/-- C3: a trimmed non-blank, non-comment line is handled by the SLEEP
branch exactly when its uppercased form starts with the literal keyword
`SLEEP`; a matched line must whitespace-split into exactly two tokens or
it fails with the SLEEP-arity error; a second token rejected by `float`
fails with the invalid-SLEEP-seconds error; otherwise the line emits a
Sleep step carrying the parsed value. -/
theorem sleep_directive_rules (raw : List Char) (hne : pystrip raw ≠ [])
    (hhash : (pystrip raw).head? ≠ some '#') :
    (sleepKw.isPrefixOf (upperList (pystrip raw)) = false →
      ∀ v l t, processLine raw ≠ .sleepStep v ∧
        processLine raw ≠ .errSleepArity l ∧ processLine raw ≠ .errSleepValue t) ∧
    (sleepKw.isPrefixOf (upperList (pystrip raw)) = true →
      ((pysplit (pystrip raw)).length ≠ 2 →
        processLine raw = .errSleepArity (pystrip raw)) ∧
      (∀ t1 t2, pysplit (pystrip raw) = [t1, t2] →
        (pyfloat t2 = none → processLine raw = .errSleepValue t2) ∧
        (∀ v, pyfloat t2 = some v → processLine raw = .sleepStep v))) := by
  obtain ⟨c, cs, hline⟩ : ∃ c cs, pystrip raw = c :: cs := by
    cases h : pystrip raw with
    | nil => exact absurd h hne
    | cons a l => exact ⟨a, l, rfl⟩
  have hc : c ≠ '#' := fun h => hhash (by rw [hline, h]; rfl)
  have hP := processLine_cons c cs raw hline hc
  rw [hline]
  constructor
  · intro hpre v l t
    rw [hP, if_neg (by simp [hpre])]
    cases hdm : dragMatch (c :: cs) with
    | none => simp
    | some r =>
      obtain ⟨a, b, e, f, g⟩ := r
      simp
  · intro hpre
    rw [hP, if_pos hpre]
    constructor
    · intro hlen
      rcases hsp : pysplit (c :: cs) with _ | ⟨t1, _ | ⟨t2, _ | ⟨t3, tl⟩⟩⟩
      · rfl
      · rfl
      · rw [hsp] at hlen
        simp at hlen
      · rfl
    · intro t1 t2 hsp
      rw [hsp]
      constructor
      · intro hnone
        simp [hnone]
      · intro v hv
        simp [hv]

theorem sleep_directive_rules_witness :
    processLine (("sleep").toList) = .errSleepArity (("sleep").toList) := by
  have h := ((sleep_directive_rules (("sleep").toList) (by decide)
    (by decide)).2 (by decide)).1 (by decide)
  rw [show pystrip (("sleep").toList) = ("sleep").toList from by decide] at h
  exact h

/-- C9: the SLEEP argument is accepted exactly as Python's general
`float` parser accepts it, and the parsed value is carried into the Sleep
step unchanged — in particular negative numbers, exponent notation,
`inf` and `nan` are accepted, and `SLEEP -5` parses to `Sleep{-5.0}`. -/
theorem sleep_accepts_any_float_token :
    (∀ tok : List Char, tok ≠ [] → (∀ c ∈ tok, isSpace c = false) →
      ∀ v, pyfloat tok = some v →
        processLine (("SLEEP ").toList ++ tok) = .sleepStep v) ∧
    processLine (("SLEEP -5").toList) = .sleepStep (PyF.finite (-5)) ∧
    processLine (("SLEEP 1e3").toList) = .sleepStep (PyF.finite 1000) ∧
    processLine (("SLEEP inf").toList) = .sleepStep (PyF.infty false) ∧
    processLine (("SLEEP nan").toList) = .sleepStep PyF.nan := by
  refine ⟨?_, ?_, ?_, ?_, ?_⟩
  · intro tok hne hns v hv
    have e : ("SLEEP ").toList ++ tok = 'S' :: (("LEEP ").toList ++ tok) := rfl
    have hstrip : pystrip (("SLEEP ").toList ++ tok) = ("SLEEP ").toList ++ tok := by
      apply pystrip_of_ends
      · intro c hc
        rw [e] at hc
        simp at hc
        subst hc
        decide
      · intro c hc
        rw [List.getLast?_append_of_ne_nil _ hne] at hc
        exact hns c (List.mem_of_mem_getLast? (by rw [hc]; rfl))
    have hsplit := pysplit_sleep_tok tok hne hns
    have hpre := sleepKw_prefix_of_append tok
    rw [e] at hstrip hsplit hpre
    rw [e, processLine_cons 'S' (("LEEP ").toList ++ tok) _ hstrip (by decide),
      if_pos hpre, hsplit]
    simp [hv]
  · simp +decide [processLine, pystrip, pysplit, splitAux, upperList, upperChar,
      sleepKw, pyfloat, pyfloatMag, digits0, digpart, lowerList, lowerChar,
      isSpace, isDigit, digitVal]
  · simp +decide [processLine, pystrip, pysplit, splitAux, upperList, upperChar,
      sleepKw, pyfloat, pyfloatMag, digits0, digpart, lowerList, lowerChar,
      isSpace, isDigit, digitVal]
  · simp +decide [processLine, pystrip, pysplit, splitAux, upperList, upperChar,
      sleepKw, pyfloat, pyfloatMag, digits0, digpart, lowerList, lowerChar,
      isSpace, isDigit, digitVal]
  · simp +decide [processLine, pystrip, pysplit, splitAux, upperList, upperChar,
      sleepKw, pyfloat, pyfloatMag, digits0, digpart, lowerList, lowerChar,
      isSpace, isDigit, digitVal]

theorem sleep_accepts_any_float_token_witness :
    processLine (("SLEEP ").toList ++ ("2.5").toList) =
      .sleepStep (PyF.finite (5 / 2)) :=
  sleep_accepts_any_float_token.1 (("2.5").toList) (by decide) (by decide)
    (PyF.finite (5 / 2))
    (by simp +decide [pyfloat, pyfloatMag, digits0, digpart, pystrip,
      lowerList, lowerChar, isSpace, isDigit, digitVal]
        norm_num)

/-- C8: every step of a successfully parsed StepSequence that is a Drag
step has integer coordinates (it is literally `Step.drag x1 y1 x2 y2 od`
with `x1 y1 x2 y2 : ℤ`), and its duration, when present, is a finite
non-negative rational. -/
theorem parsed_drag_invariant (path : List Char) (lines : List (List Char))
    (steps : List Step) (h : parse_file path lines = .ok steps) :
    ∀ st ∈ steps,
      (isDragStep st = true →
        ∃ (x1 y1 x2 y2 : ℤ) (od : Option PyF), st = Step.drag x1 y1 x2 y2 od) ∧
      (∀ x1 y1 x2 y2 d, st = Step.drag x1 y1 x2 y2 (some d) →
        ∃ q : ℚ, d = PyF.finite q ∧ 0 ≤ q) := by
  intro st hst
  constructor
  · intro hd
    cases st with
    | drag a b c d od => exact ⟨a, b, c, d, od, rfl⟩
    | sleep s => simp [isDragStep] at hd
  · intro x1 y1 x2 y2 d hstep
    subst hstep
    rcases parseLinesFrom_ok_steps path lines 1 steps h _ hst with
      ⟨v, hv⟩ | ⟨a, b, c, dd, od, raw, heq, hpl⟩
    · simp at hv
    · simp only [Step.drag.injEq] at heq
      obtain ⟨rfl, rfl, rfl, rfl, hod⟩ := heq
      exact processLine_drag_duration raw x1 y1 x2 y2 od hpl d hod.symm

theorem parsed_drag_invariant_witness :
    ∃ q : ℚ, PyF.finite (1 / 2) = PyF.finite q ∧ 0 ≤ q := by
  have hparse : parse_file ("m").toList [("1,2 -> 3,4,.5").toList] =
      .ok [Step.drag 1 2 3 4 (some (PyF.finite (1 / 2)))] := by
    simp +decide [parse_file, parseLinesFrom, processLine, pystrip, pysplit,
      splitAux, upperList, upperChar, sleepKw, dragMatch, matchInt, digitsPlain,
      digitsLoop, skipWs, durOk, isDurChar, floatOfGroup, pyfloat, pyfloatMag,
      digits0, digpart, lowerList, lowerChar, isSpace, isDigit, digitVal,
      Except.map]
    norm_num
  exact (parsed_drag_invariant ("m").toList [("1,2 -> 3,4,.5").toList] _ hparse
    (Step.drag 1 2 3 4 (some (PyF.finite (1 / 2)))) (by simp)).2 1 2 3 4
    (PyF.finite (1 / 2)) rfl

/-- C4 counterexample: the failing line "SLEEP q!" is reported with a
message that does not contain the raw line text at all (only the
offending token), and the failing line "oops " (trailing space) is
reported with the trimmed text, so the verbatim original untrimmed raw
line is not included either. -/
theorem parse_error_message_counterexample :
    parse_file ("m").toList [("SLEEP q!").toList] =
      .error ⟨1, mkValueMsg ("m").toList 1 (("q!").toList)⟩ ∧
    containsSub (mkValueMsg ("m").toList 1 (("q!").toList))
      (("SLEEP q!").toList) = false ∧
    parse_file ("m").toList [("oops ").toList] =
      .error ⟨1, mkBadMsg ("m").toList 1 (("oops").toList)⟩ ∧
    containsSub (mkBadMsg ("m").toList 1 (("oops").toList))
      (("oops ").toList) = false := by
  exact ⟨rfl, by decide, rfl, by decide⟩

/-- C4 (amended): every parse failure carries the 1-based index of the
first erroneous line — the reported index is in range, that line errs,
every earlier line does not — the message embeds the path and that line
number, and no (partial) step list is returned.  The message body holds
the trimmed line (arity / invalid-line errors) or just the offending
token (invalid-SLEEP-seconds error), not the verbatim untrimmed raw
line. -/
theorem parse_error_first_line (path : List Char) (lines : List (List Char))
    (e : PError) (h : parse_file path lines = .error e) :
    1 ≤ e.idx ∧ e.idx - 1 < lines.length ∧
    (∃ raw, lines.get? (e.idx - 1) = some raw ∧ errLine raw = true) ∧
    (∀ j, j < e.idx - 1 → ∀ r, lines.get? j = some r → errLine r = false) ∧
    (∃ tail, e.msg =
      path ++ (":").toList ++ showNat e.idx ++ (":").toList ++ tail) ∧
    (∀ steps : List Step, parse_file path lines ≠ .ok steps) := by
  obtain ⟨h1, h2, h3, h4, h5⟩ := parseLinesFrom_error path lines 1 e h
  exact ⟨h1, h2, h3, h4, h5, fun steps hc => by rw [h] at hc; simp at hc⟩

theorem parse_error_first_line_witness :
    ∃ raw, [("1,2 -> 3,4").toList, ("xx").toList].get?
        ((⟨2, mkBadMsg ("m").toList 2 (("xx").toList)⟩ : PError).idx - 1) =
      some raw ∧ errLine raw = true :=
  (parse_error_first_line ("m").toList
    [("1,2 -> 3,4").toList, ("xx").toList]
    ⟨2, mkBadMsg ("m").toList 2 (("xx").toList)⟩ rfl).2.2.1

/-- C5: for a trimmed non-blank, non-comment, non-SLEEP line, (i) if the
line matches the drag grammar `<int>,<int> -> <int>,<int>[,<real>]` (with
arbitrary whitespace around tokens, possibly signed integers, and an
optional duration that may lead with `.`), then the parser emits exactly
`Drag{(x1,y1),(x2,y2),duration}` with `duration = None` when the optional
group is absent; (ii) if the line matches the grammar at no values at
all, the parser fails with the invalid-line error. -/
theorem drag_line_grammar (raw : List Char) (hne : pystrip raw ≠ [])
    (hhash : (pystrip raw).head? ≠ some '#')
    (hslp : sleepKw.isPrefixOf (upperList (pystrip raw)) = false) :
    (∀ x1 y1 x2 y2 od, DragDecomp (pystrip raw) x1 y1 x2 y2 od →
      processLine raw = .dragStep x1 y1 x2 y2 (od.map PyF.finite)) ∧
    ((∀ x1 y1 x2 y2 od, ¬DragDecomp (pystrip raw) x1 y1 x2 y2 od) →
      processLine raw = .errBadLine (pystrip raw)) := by
  obtain ⟨c, cs, hline⟩ : ∃ c cs, pystrip raw = c :: cs := by
    cases h : pystrip raw with
    | nil => exact absurd h hne
    | cons a l => exact ⟨a, l, rfl⟩
  have hc : c ≠ '#' := fun h => hhash (by rw [hline, h]; rfl)
  have hP := processLine_cons c cs raw hline hc
  rw [hline] at hslp ⊢
  rw [hP, if_neg (by simp [hslp])]
  constructor
  · intro x1 y1 x2 y2 od hdec
    obtain ⟨hcompl1, hcompl2⟩ := dragMatch_complete (c :: cs) x1 y1 x2 y2 od hdec
    cases od with
    | none =>
      rw [hcompl1 rfl]
      rfl
    | some q =>
      obtain ⟨p, hdm, hfl, -⟩ := hcompl2 q rfl
      rw [hdm]
      simp [hfl]
  · intro hno
    cases hdm : dragMatch (c :: cs) with
    | none => rfl
    | some r =>
      obtain ⟨a, b, c2, d2, og⟩ := r
      obtain ⟨od, hdec⟩ := dragMatch_sound (c :: cs) a b c2 d2 og hdm
      exact absurd hdec (hno a b c2 d2 od)

theorem drag_line_grammar_witness :
    processLine ((" 1,2 -> 3,4, .5 ").toList) =
      .dragStep 1 2 3 4 (some (PyF.finite (1 / 2))) := by
  have hdec : DragDecomp (pystrip ((" 1,2 -> 3,4, .5 ").toList)) 1 2 3 4
      (some (1 / 2)) := by
    rw [show pystrip ((" 1,2 -> 3,4, .5 ").toList) =
      ("1,2 -> 3,4, .5").toList from by decide]
    refine ⟨[], ("1").toList, [], [], ("2").toList, [' '], [' '],
      ("3").toList, [], [], ("4").toList, (", .5").toList,
      by unfold IsWsStr; decide, by unfold IsWsStr; decide,
      by unfold IsWsStr; decide, by unfold IsWsStr; decide,
      by unfold IsWsStr; decide, by unfold IsWsStr; decide,
      by unfold IsWsStr; decide,
      Or.inl ⟨['1'], by decide, by decide, by decide, by decide⟩,
      Or.inl ⟨['2'], by decide, by decide, by decide, by decide⟩,
      Or.inl ⟨['3'], by decide, by decide, by decide, by decide⟩,
      Or.inl ⟨['4'], by decide, by decide, by decide, by decide⟩,
      by decide, ?_⟩
    refine ⟨[], [' '], ['.', '5'], [], by unfold IsWsStr; decide,
      by unfold IsWsStr; decide, by unfold IsWsStr; decide,
      Or.inr ⟨[], ['5'], by decide, by decide, by decide, by decide, ?_⟩,
      by decide⟩
    simp [digitsVal, digitVal]
    norm_num
  have h := (drag_line_grammar ((" 1,2 -> 3,4, .5 ").toList) (by decide)
    (by decide) (by decide)).1 1 2 3 4 (some (1 / 2)) hdec
  simpa using h

end DragMouse
